import Mathlib

/-!
Verification of commjack: deck, hand scoring and game state machine.

A shallow embedding of `card.go`, `game.go`, the result classifications of
`ai.go` and one iteration of the game loop of `main.go`, followed by the
properties proved about it.

Conventions of the embedding:

* The Go type `int` is the 64-bit twos-complement integer. Values are carried as
  `Int` and every addition the source performs on a score is followed by
  `wrapInt`, which reduces the mathematical result into `[-2^63, 2^63)`.
* `Suit` and `Rank` are named `int` types in the source, so any integer is a
  well-formed `Rank`; the constants `Ace .. King` are `1 .. 13`.
* A slice is a `List`. A slice of sixteen-byte `Card` values cannot hold
  `2^59` elements (its bytes would not fit the address space), which is the
  bound `maxHandLen` under which the scoring additions cannot wrap.
* Mutation through a pointer receiver is explicit state passing: the
  operation returns the value the receiver holds afterwards.
* `rand.Shuffle` is the Go standard library; it reaches the deck only through
  the swap closure, so a run of it is the list of index pairs it passes.
* Printing, sleeping and the commentary calls do not touch the deck, the
  hands or the state and are left out of the operations modelled here; a call
  of `generateAIResultPrompt` is kept as the classification it is given.
* A line read from the player enters `PlayerAction` as the action it
  normalises to, the value of `strings.TrimSpace(strings.ToLower(input))`.
-/

namespace Commjack

/-! ## card.go -/

/-- Suit: `type Suit int`. -/
abbrev Suit := Int

def Spade : Suit := 0
def Heart : Suit := 1
def Diamond : Suit := 2
def Club : Suit := 3

/-- Rank: `type Rank int`, the constants start at `iota + 1`. -/
abbrev Rank := Int

def Ace : Rank := 1
def Two : Rank := 2
def Three : Rank := 3
def Four : Rank := 4
def Five : Rank := 5
def Six : Rank := 6
def Seven : Rank := 7
def Eight : Rank := 8
def Nine : Rank := 9
def Ten : Rank := 10
def Jack : Rank := 11
def Queen : Rank := 12
def King : Rank := 13

/-- Reduction of a mathematical integer to the 64-bit `int` of Go. -/
def wrapInt (x : Int) : Int := (x + 2 ^ 63) % 2 ^ 64 - 2 ^ 63

/-- The pair `(low, high)` of `func (r Rank) Value() (int, int)`. -/
def Rank.Value (r : Rank) : Int × Int :=
  if r = Ace then (1, 11)
  else if r = Jack ∨ r = Queen ∨ r = King then (10, 10)
  else (r, r)

/-- Card: `type Card struct { Suit Suit; Rank Rank }`. -/
structure Card where
  Suit : Suit
  Rank : Rank
  deriving DecidableEq, Repr

/-- The zero value `Card{}`. -/
def Card.zero : Card := ⟨0, 0⟩

/-- Deck: `type Deck []Card`. -/
abbrev Deck := List Card

/-- Hand: `type Hand []Card`. -/
abbrev Hand := List Card

/-- Upper bound (exclusive) on the number of cards a slice can hold. -/
def maxHandLen : Nat := 2 ^ 59

/-- AddCard: `*h = append(*h, c)`. -/
def Hand.AddCard (h : Hand) (c : Card) : Hand := h ++ [c]

/-- First loop of `Score`: `for _, card := range h`, carrying
`(lowScore, aceCount)`. `aceCount` counts elements of the slice, so it is
at most `len(h)` and never wraps. -/
def Hand.scoreCards : List Card → Int × Nat → Int × Nat
  | [], acc => acc
  | card :: rest, (lowScore, aceCount) =>
    let low := (Rank.Value card.Rank).1
    if card.Rank = Ace then
      Hand.scoreCards rest (wrapInt (lowScore + low), aceCount + 1)
    else
      Hand.scoreCards rest (wrapInt (lowScore + low), aceCount)

/-- Second loop of `Score`: `for i := 0; i < aceCount; i++`, with the number
of iterations still to run as first argument. -/
def Hand.upgradeAces : Nat → Int → Int
  | 0, lowScore => lowScore
  | n + 1, lowScore =>
    if wrapInt (lowScore + 10) ≤ 21 then
      Hand.upgradeAces n (wrapInt (lowScore + 10))
    else
      Hand.upgradeAces n lowScore

/-- Score: `func (h Hand) Score() int`. -/
def Hand.Score (h : Hand) : Int :=
  let r := Hand.scoreCards h (0, 0)
  Hand.upgradeAces r.2 r.1

/-- IsBust: `h.Score() > 21`. -/
def Hand.IsBust (h : Hand) : Bool := decide (Hand.Score h > 21)

/-- IsBlackjack: `len(h) == 2 && h.Score() == 21`. -/
def Hand.IsBlackjack (h : Hand) : Bool :=
  decide (h.length = 2) && decide (Hand.Score h = 21)

/-! ## Reference notions used to state the scoring properties -/

/-- Every card has a rank among `Ace .. King`. -/
def Hand.ValidRanks (h : Hand) : Prop := ∀ c ∈ h, Ace ≤ c.Rank ∧ c.Rank ≤ King

instance (h : Hand) : Decidable (Hand.ValidRanks h) := by
  unfold Hand.ValidRanks; infer_instance

/-- The total with every card at its low value (every Ace counted as 1). -/
def Hand.lowTotal (h : Hand) : Int := (h.map (fun c => (Rank.Value c.Rank).1)).sum

/-- Number of Aces in the hand. -/
def Hand.aces (h : Hand) : Nat := h.countP (fun c => decide (c.Rank = Ace))

/-- All totals obtainable by giving each card one of the two values returned
by `Rank.Value` (1 or 11 for an Ace, the fixed value twice otherwise). -/
def Hand.totals : Hand → List Int
  | [] => [0]
  | c :: h =>
    (Hand.totals h).map (fun t => t + (Rank.Value c.Rank).1) ++
      (Hand.totals h).map (fun t => t + (Rank.Value c.Rank).2)

/-- The fixed value of a non-Ace rank in the words of the rules: 10 for a
face card, the numeral itself otherwise. -/
def fixedValue (r : Rank) : Int :=
  if r = Jack ∨ r = Queen ∨ r = King then 10 else r

/-- The cards of a hand other than its Aces, in order. -/
def Hand.nonAces (h : Hand) : Hand := h.filter (fun c => !decide (c.Rank = Ace))

/-- Sum of the fixed values of the cards of a hand. -/
def Hand.fixedTotal (h : Hand) : Int := (h.map (fun c => fixedValue c.Rank)).sum

/-- Go `error` values built by `fmt.Errorf`: a bare message, or a format ending
in `%w` that wraps an inner error. -/
inductive GoError where
  | errorf (msg : String) : GoError
  | wrapf (format : String) (inner : GoError) : GoError
  deriving DecidableEq, Repr

/-- The loop `for x := lo; x <= hi; x++ { body }` threading an accumulator. -/
def forUpTo {α : Type} (lo hi : Int) (body : Int → α → α) (acc : α) : α :=
  (List.range (hi + 1 - lo).toNat).foldl (fun a k => body (lo + (k : Int)) a) acc

/-- NewDeck: suits in the outer loop, ranks in the inner loop, each card
appended to the deck. -/
def NewDeck : Deck :=
  forUpTo Spade Club
    (fun s deck => forUpTo Ace King (fun r deck => deck ++ [(⟨s, r⟩ : Card)]) deck) []

/-- Indexing `d[i]` with an `int`; `none` is the index-out-of-range panic. -/
def Deck.index (d : Deck) (i : Int) : Option Card :=
  if 0 ≤ i then d[i.toNat]? else none

/-- The swap closure handed to `rand.Shuffle`: `d[i], d[j] = d[j], d[i]`.
Both operands are read before either element is assigned. -/
def Deck.swap (d : Deck) (i j : Int) : Option Deck :=
  match Deck.index d i, Deck.index d j with
  | some a, some b => some ((d.set i.toNat b).set j.toNat a)
  | _, _ => none

/-- Shuffle: `rand.Shuffle(len(d), swap)` belongs to the Go standard library and
acts on the deck only through the swap closure, so an outcome of the random
source is the sequence of index pairs the closure is called with. `none` is a
panic inside the closure. -/
def Deck.Shuffle : Deck → List (Int × Int) → Option Deck
  | d, [] => some d
  | d, (i, j) :: rest =>
    match Deck.swap d i j with
    | none => none
    | some d' => Deck.Shuffle d' rest

/-- Draw: returns the card, the error and the deck the receiver holds
afterwards. -/
def Deck.Draw (d : Deck) : Card × Option GoError × Deck :=
  if d.length = 0 then
    (Card.zero, some (GoError.errorf "deck is empty"), d)
  else
    (d.headD Card.zero, none, d.drop 1)

/-! ## game.go -/

/-- GameState: `type GameState int`. -/
abbrev GameState := Int

def PlayerTurn : GameState := 0
def DealerTurn : GameState := 1
def GameOver : GameState := 2

/-- Game: the game aggregate. -/
structure Game where
  Deck : Deck
  PlayerHand : Hand
  DealerHand : Hand
  GameState : GameState
  AIDisabled : Bool
  deriving DecidableEq, Repr

/-- NewGame: a fresh deck, shuffled, two empty hands, state `PlayerTurn`. -/
def NewGame (aiDisabled : Bool) (swaps : List (Int × Int)) : Option Game :=
  match Deck.Shuffle NewDeck swaps with
  | none => none
  | some deck =>
    some { Deck := deck, PlayerHand := [], DealerHand := [], GameState := PlayerTurn,
           AIDisabled := aiDisabled }

/-- Body of the loop of `DealInitialHands`: one card to the player, one to the
dealer, returning at the first failed draw. -/
def Game.dealBody (g : Game) : Option GoError × Game :=
  match Deck.Draw g.Deck with
  | (_, some err, deck) =>
    (some (GoError.wrapf "failed to draw card for player: %w" err), { g with Deck := deck })
  | (card, none, deck) =>
    let g1 : Game := { g with Deck := deck, PlayerHand := Hand.AddCard g.PlayerHand card }
    match Deck.Draw g1.Deck with
    | (_, some err, deck) =>
      (some (GoError.wrapf "failed to draw card for dealer: %w" err), { g1 with Deck := deck })
    | (card, none, deck) =>
      (none, { g1 with Deck := deck, DealerHand := Hand.AddCard g1.DealerHand card })

/-- The loop `for i := 0; i < 2; i++` of `DealInitialHands`, with the number of
iterations still to run. -/
def Game.dealLoop : Nat → Game → Option GoError × Game
  | 0, g => (none, g)
  | n + 1, g =>
    match Game.dealBody g with
    | (some err, g') => (some err, g')
    | (none, g') => Game.dealLoop n g'

/-- DealInitialHands: the error returned and the game afterwards. -/
def Game.DealInitialHands (g : Game) : Option GoError × Game := Game.dealLoop 2 g

/-! ## ai.go: result classifications -/

/-- ResultType: `type ResultType string`. -/
abbrev ResultType := String

def PlayerWin : ResultType := "プレイヤー勝利"
def DealerWin : ResultType := "ディーラー勝利"
def Push : ResultType := "引き分け"
def PlayerBust : ResultType := "プレイヤーバスト"
def DealerBust : ResultType := "ディーラーバスト"
def PlayerBlackjack : ResultType := "プレイヤーブラックジャック"
def DealerBlackjack : ResultType := "ディーラーブラックジャック"
def PushBlackjack : ResultType := "両者ブラックジャック"

/-! ## game.go: the turns

An operation that calls `generateAIResultPrompt(resultType, ...)` emits the
classification `resultType`; the classifications emitted are returned in call
order next to the error and the game the receiver holds afterwards. -/

/-- What a turn operation returns: its `error`, the game afterwards and the
classifications it emitted. -/
structure Outcome where
  err : Option GoError
  game : Game
  emitted : List ResultType
  deriving DecidableEq, Repr

/-- PlayerAction, from the `switch action` on. `action` is the value of
`strings.TrimSpace(strings.ToLower(input))` for the line read from the reader;
the prompt printed before the read does not touch the game. -/
def Game.PlayerAction (g : Game) (action : String) : Outcome :=
  if action = "h" ∨ action = "hit" then
    match Deck.Draw g.Deck with
    | (_, some err, deck) =>
      ⟨some (GoError.wrapf "ヒット中にエラー発生: %w" err), { g with Deck := deck }, []⟩
    | (card, none, deck) =>
      let g1 : Game := { g with Deck := deck, PlayerHand := Hand.AddCard g.PlayerHand card }
      if Hand.IsBust g1.PlayerHand then
        ⟨none, { g1 with GameState := GameOver }, [PlayerBust]⟩
      else
        ⟨none, g1, []⟩
  else if action = "s" ∨ action = "stand" then
    ⟨none, { g with GameState := DealerTurn }, []⟩
  else
    ⟨none, g, []⟩

/-- The loop `for g.DealerHand.Score() < 17` of `DealerAction` followed by the
statements after it, with a bound on the iterations still allowed; `none` when
the bound is used up. -/
def Game.dealerLoop : Nat → Game → Option Outcome
  | 0, _ => none
  | fuel + 1, g =>
    if Hand.Score g.DealerHand < 17 then
      match Deck.Draw g.Deck with
      | (_, some err, deck) =>
        some ⟨some (GoError.wrapf "ディーラーのヒット中にエラー発生: %w" err),
          { g with Deck := deck }, []⟩
      | (card, none, deck) =>
        let g1 : Game := { g with Deck := deck, DealerHand := Hand.AddCard g.DealerHand card }
        if Hand.IsBust g1.DealerHand then
          some ⟨none, { g1 with GameState := GameOver }, [DealerBust]⟩
        else
          Game.dealerLoop fuel g1
    else if g.GameState ≠ GameOver then
      some ⟨none, { g with GameState := GameOver }, []⟩
    else
      some ⟨none, g, []⟩

/-- DealerAction: every iteration of its loop draws a card or returns, so one
iteration more than the deck has cards is allowed. -/
def Game.DealerAction (g : Game) : Option Outcome := Game.dealerLoop (g.Deck.length + 1) g

/-- The `resultType` chosen by the `if` chain of `DetermineWinner`. -/
def classify (playerScore dealerScore : Int) : ResultType :=
  if playerScore > 21 then PlayerBust
  else if dealerScore > 21 then DealerBust
  else if playerScore = dealerScore then Push
  else if playerScore > dealerScore then PlayerWin
  else DealerWin

/-- DetermineWinner: the game afterwards and the classification emitted. -/
def Game.DetermineWinner (g : Game) : Game × List ResultType :=
  let playerScore := Hand.Score g.PlayerHand
  let dealerScore := Hand.Score g.DealerHand
  (g, [classify playerScore dealerScore])

/-! ## main.go: one iteration of the game loop -/

/-- A call of a game operation made by `main` during a round. -/
inductive Call where
  | PlayerAction (action : String) : Call
  | DealerAction : Call
  | DetermineWinner : Call
  deriving DecidableEq, Repr

/-- State of a round in progress: the game, the classifications emitted so far,
the operations called so far, the errors they returned, the flag
`initialResultDetermined`, and whether the round ran to the end of the
iteration (`false` when the round is still waiting for a player input). -/
structure Round where
  game : Game
  emitted : List ResultType
  calls : List Call
  errors : List GoError
  initialResultDetermined : Bool
  completed : Bool
  deriving DecidableEq, Repr

/-- The blackjack check made right after dealing: the game, the classification
emitted and `initialResultDetermined`. -/
def initialBlackjackCheck (game : Game) : Game × List ResultType × Bool :=
  let playerHasBJ := Hand.IsBlackjack game.PlayerHand
  let dealerHasBJ := Hand.IsBlackjack game.DealerHand
  if playerHasBJ then
    if dealerHasBJ then
      ({ game with GameState := GameOver }, [PushBlackjack], true)
    else
      ({ game with GameState := GameOver }, [PlayerBlackjack], true)
  else if dealerHasBJ then
    ({ game with GameState := GameOver }, [DealerBlackjack], true)
  else
    (game, [], false)

/-- The loop `for game.GameState == PlayerTurn` around `PlayerAction`, reading
the actions in order; an error sets the state to `GameOver`. When the actions
run out in state `PlayerTurn` the round has not reached its end. -/
def playerLoop : List String → Round → Round
  | [], r =>
    if r.game.GameState = PlayerTurn then { r with completed := false } else r
  | action :: rest, r =>
    if r.game.GameState = PlayerTurn then
      let o := Game.PlayerAction r.game action
      let game : Game :=
        match o.err with
        | some _ => { o.game with GameState := GameOver }
        | none => o.game
      playerLoop rest
        { r with game := game, emitted := r.emitted ++ o.emitted,
                 calls := r.calls ++ [Call.PlayerAction action],
                 errors := r.errors ++ o.err.toList }
    else r

/-- The dealer turn of the round: `DealerAction` when the state is
`DealerTurn`, an error setting the state to `GameOver`. -/
def dealerStep (r : Round) : Round :=
  if r.game.GameState = DealerTurn then
    match Game.DealerAction r.game with
    | none => { r with completed := false }
    | some o =>
      let game : Game :=
        match o.err with
        | some _ => { o.game with GameState := GameOver }
        | none => o.game
      { r with game := game, emitted := r.emitted ++ o.emitted,
               calls := r.calls ++ [Call.DealerAction],
               errors := r.errors ++ o.err.toList }
  else r

/-- The guarded call of `DetermineWinner` that ends the round. -/
def winnerStep (r : Round) : Round :=
  if r.game.GameState = GameOver ∧ r.initialResultDetermined = false then
    if Hand.IsBust r.game.PlayerHand = false ∧ Hand.IsBust r.game.DealerHand = false then
      let w := Game.DetermineWinner r.game
      { r with game := w.1, emitted := r.emitted ++ w.2,
               calls := r.calls ++ [Call.DetermineWinner] }
    else r
  else r

/-- The round from the blackjack check to the winner determination, on the game
as dealt and the actions the player will type. -/
def roundAfterDeal (game : Game) (actions : List String) : Round :=
  let b := initialBlackjackCheck game
  let r0 : Round :=
    { game := b.1, emitted := b.2.1, calls := [], errors := [],
      initialResultDetermined := b.2.2, completed := true }
  let r1 := playerLoop actions r0
  if r1.completed then winnerStep (dealerStep r1) else r1

/-- One iteration of the game loop of `main` on a fresh game: `main` returns
with the error when dealing fails. -/
def playRound (game : Game) (actions : List String) : Except GoError Round :=
  match Game.DealInitialHands game with
  | (some err, _) => Except.error err
  | (none, g) => Except.ok (roundAfterDeal g actions)

/-! ## Reference notions used to state the card-conservation properties -/

/-- The game `g'` differs from `g` in its cards only by cards taken from the
front of the deck and appended to the hands: each hand of `g` is a prefix of the
hand of `g'`, the deck of `g'` is a suffix of the deck of `g`, and the cards
appended are, as a multiset, the cards removed. -/
def CardsMoved (g g' : Game) : Prop :=
  ∃ toPlayer toDealer removed : List Card,
    g'.PlayerHand = g.PlayerHand ++ toPlayer ∧
    g'.DealerHand = g.DealerHand ++ toDealer ∧
    g.Deck = removed ++ g'.Deck ∧
    List.Perm (toPlayer ++ toDealer) removed

/-- The deck and the two hands together hold the 52 cards of `NewDeck`. -/
def FullDeck (g : Game) : Prop :=
  List.Perm (g.Deck ++ g.PlayerHand ++ g.DealerHand) NewDeck

/-- Games reachable from `NewGame` by the four operations, with any player
action, and by the assignments to `GameState` made in `main`. -/
inductive Reachable : Game → Prop where
  | newGame (ai : Bool) (swaps : List (Int × Int)) (g : Game) :
      NewGame ai swaps = some g → Reachable g
  | deal (g : Game) : Reachable g → Reachable (Game.DealInitialHands g).2
  | player (g : Game) (action : String) :
      Reachable g → Reachable (Game.PlayerAction g action).game
  | dealer (g : Game) (o : Outcome) :
      Reachable g → Game.DealerAction g = some o → Reachable o.game
  | winner (g : Game) : Reachable g → Reachable (Game.DetermineWinner g).1
  | setState (g : Game) (st : GameState) : Reachable g → Reachable { g with GameState := st }

/-- The card `NewDeck` holds at index `i`. -/
def canonicalCard (i : Nat) : Card := ⟨((i / 13 : Nat) : Int), ((i % 13 + 1 : Nat) : Int)⟩

/-! ## Scoring: auxiliary lemmas -/

theorem wrapInt_of_bounds (x : Int) (h1 : -2 ^ 63 ≤ x) (h2 : x < 2 ^ 63) : wrapInt x = x := by
  unfold wrapInt
  omega

theorem wrapInt_add_left (a b : Int) : wrapInt (wrapInt a + b) = wrapInt (a + b) := by
  unfold wrapInt
  omega

theorem lowTotal_cons (c : Card) (h : Hand) :
    Hand.lowTotal (c :: h) = (Rank.Value c.Rank).1 + Hand.lowTotal h := by
  simp [Hand.lowTotal]

theorem aces_cons (c : Card) (h : Hand) :
    Hand.aces (c :: h) = Hand.aces h + (if c.Rank = Ace then 1 else 0) := by
  simp [Hand.aces, List.countP_cons]

/-- The first loop computes the wrapped low total and the number of Aces. -/
theorem scoreCards_eq (h : Hand) (l : Int) (a : Nat) :
    Hand.scoreCards h (wrapInt l, a) = (wrapInt (l + Hand.lowTotal h), a + Hand.aces h) := by
  induction h generalizing l a with
  | nil => simp [Hand.scoreCards, Hand.lowTotal, Hand.aces]
  | cons c h ih =>
    simp only [Hand.scoreCards, lowTotal_cons, aces_cons, wrapInt_add_left]
    split
    · rw [ih]
      refine Prod.ext ?_ ?_
      · show wrapInt _ = wrapInt _
        congr 1; omega
      · show a + 1 + _ = a + (_ + 1)
        omega
    · rw [ih]
      refine Prod.ext ?_ ?_
      · show wrapInt _ = wrapInt _
        congr 1; omega
      · rfl

theorem Score_eq_upgrade (h : Hand) :
    Hand.Score h = Hand.upgradeAces (Hand.aces h) (wrapInt (Hand.lowTotal h)) := by
  have h0 : (0 : Int) = wrapInt 0 := by decide
  unfold Hand.Score
  rw [h0, scoreCards_eq]
  simp

theorem value_fst_bounds (r : Rank) (h : Ace ≤ r ∧ r ≤ King) :
    1 ≤ (Rank.Value r).1 ∧ (Rank.Value r).1 ≤ 10 := by
  unfold Rank.Value
  unfold Ace King at h
  by_cases h1 : r = Ace
  · simp [h1]
  · by_cases h2 : r = Jack ∨ r = Queen ∨ r = King
    · simp [h1, h2]
    · simp only [h1, h2, if_false]
      unfold Ace at h1
      unfold Jack Queen King at h2
      show 1 ≤ r ∧ r ≤ 10
      unfold Rank at *
      omega

theorem value_snd (r : Rank) :
    (Rank.Value r).2 = (Rank.Value r).1 + (if r = Ace then 10 else 0) := by
  unfold Rank.Value
  split
  · simp
  · split <;> simp

theorem validRanks_cons (c : Card) (h : Hand) :
    Hand.ValidRanks (c :: h) ↔ (Ace ≤ c.Rank ∧ c.Rank ≤ King) ∧ Hand.ValidRanks h := by
  simp [Hand.ValidRanks]

theorem lowTotal_bounds (h : Hand) (hv : Hand.ValidRanks h) :
    (Hand.aces h : Int) ≤ Hand.lowTotal h ∧ (h.length : Int) ≤ Hand.lowTotal h ∧ Hand.lowTotal h ≤ 10 * h.length := by
  induction h with
  | nil => simp [Hand.lowTotal, Hand.aces]
  | cons c h ih =>
    rw [validRanks_cons] at hv
    have hb := value_fst_bounds c.Rank hv.1
    have := ih hv.2
    rw [lowTotal_cons, aces_cons]
    simp only [List.length_cons]
    split <;> push_cast <;> omega

theorem upgradeAces_high (n : Nat) (l : Int) (h1 : 12 ≤ l) (h2 : l < 2 ^ 63 - 10) :
    Hand.upgradeAces n l = l := by
  induction n with
  | zero => rfl
  | succ n ih =>
    have : wrapInt (l + 10) = l + 10 := wrapInt_of_bounds _ (by omega) (by omega)
    simp only [Hand.upgradeAces, this]
    rw [if_neg (by omega)]
    exact ih

theorem upgradeAces_low (n : Nat) (l : Int) (hn : 1 ≤ n) (h1 : (n : Int) ≤ l) (h2 : l ≤ 11) :
    Hand.upgradeAces n l = l + 10 := by
  obtain ⟨m, rfl⟩ : ∃ m, n = m + 1 := ⟨n - 1, by omega⟩
  have : wrapInt (l + 10) = l + 10 := wrapInt_of_bounds _ (by omega) (by omega)
  simp only [Hand.upgradeAces, this]
  rw [if_pos (by omega)]
  cases m with
  | zero => rfl
  | succ k =>
    apply upgradeAces_high
    · push_cast at h1; omega
    · omega

/-- Closed form of `Score` on hands of in-range ranks. -/
theorem Score_closed (h : Hand) (hv : Hand.ValidRanks h) (hl : h.length < maxHandLen) :
    Hand.Score h =
      if 1 ≤ Hand.aces h ∧ Hand.lowTotal h ≤ 11 then Hand.lowTotal h + 10 else Hand.lowTotal h := by
  have hb := lowTotal_bounds h hv
  have hlen : (h.length : Int) < 2 ^ 59 := by
    unfold maxHandLen at hl; exact_mod_cast hl
  have hw : wrapInt (Hand.lowTotal h) = Hand.lowTotal h :=
    wrapInt_of_bounds _ (by omega) (by omega)
  rw [Score_eq_upgrade, hw]
  split
  · next hc => exact upgradeAces_low _ _ hc.1 hb.1 hc.2
  · next hc =>
    by_cases ha : 1 ≤ Hand.aces h
    · have : 12 ≤ Hand.lowTotal h := by
        by_contra hcon
        exact hc ⟨ha, by omega⟩
      exact upgradeAces_high _ _ this (by omega)
    · have : Hand.aces h = 0 := by omega
      rw [this]; rfl

theorem mem_totals (h : Hand) (t : Int) :
    t ∈ Hand.totals h ↔ ∃ k : Nat, k ≤ Hand.aces h ∧ t = Hand.lowTotal h + 10 * k := by
  induction h generalizing t with
  | nil => simp [Hand.totals, Hand.lowTotal, Hand.aces]
  | cons c h ih =>
    simp only [Hand.totals, List.mem_append, List.mem_map, lowTotal_cons, aces_cons, value_snd]
    constructor
    · rintro (⟨s, hs, rfl⟩ | ⟨s, hs, rfl⟩)
      · obtain ⟨k, hk, rfl⟩ := (ih s).1 hs
        exact ⟨k, by omega, by omega⟩
      · obtain ⟨k, hk, rfl⟩ := (ih s).1 hs
        by_cases hc : c.Rank = Ace
        · exact ⟨k + 1, by simp [hc]; omega, by simp [hc]; omega⟩
        · exact ⟨k, by omega, by simp [hc]; omega⟩
    · rintro ⟨k, hk, rfl⟩
      by_cases hc : c.Rank = Ace
      · simp only [hc, if_true] at hk ⊢
        by_cases hk0 : k ≤ Hand.aces h
        · left
          exact ⟨Hand.lowTotal h + 10 * k, (ih _).2 ⟨k, hk0, rfl⟩, by omega⟩
        · right
          refine ⟨Hand.lowTotal h + 10 * (k - 1 : Nat), (ih _).2 ⟨k - 1, by omega, rfl⟩, ?_⟩
          have : ((k - 1 : Nat) : Int) = (k : Int) - 1 := by omega
          rw [this]; omega
      · simp only [hc, if_false] at hk ⊢
        left
        exact ⟨Hand.lowTotal h + 10 * k, (ih _).2 ⟨k, by omega, rfl⟩, by omega⟩

theorem value_fst_eq (r : Rank) :
    (Rank.Value r).1 = if r = Ace then 1 else fixedValue r := by
  unfold Rank.Value fixedValue
  by_cases h1 : r = Ace
  · simp [h1]
  · by_cases h2 : r = Jack ∨ r = Queen ∨ r = King <;> simp [h1, h2]

theorem lowTotal_split (h : Hand) :
    Hand.lowTotal h = Hand.aces h + Hand.fixedTotal (Hand.nonAces h) := by
  induction h with
  | nil => simp [Hand.lowTotal, Hand.aces, Hand.fixedTotal, Hand.nonAces]
  | cons c h ih =>
    rw [lowTotal_cons, aces_cons, ih, value_fst_eq]
    by_cases hc : c.Rank = Ace
    · simp [hc, Hand.nonAces, Hand.fixedTotal]
      omega
    · simp [hc, Hand.nonAces, Hand.fixedTotal]
      omega

theorem nonAces_eq_self (h : Hand) (hn : ∀ c ∈ h, c.Rank ≠ Ace) : Hand.nonAces h = h := by
  unfold Hand.nonAces
  rw [List.filter_eq_self]
  intro c hc
  simpa using hn c hc

theorem aces_eq_zero (h : Hand) (hn : ∀ c ∈ h, c.Rank ≠ Ace) : Hand.aces h = 0 := by
  unfold Hand.aces
  rw [List.countP_eq_zero]
  intro c hc
  simpa using hn c hc

/-! ## Scoring: the properties -/

/-- C1: on a hand of ranks Ace..King, Score is the largest total not above 21 among
the totals with each Ace at 1 or 11 when there is one, and the all-Aces-low
total otherwise; two Aces alone score 12. -/
theorem Score_best_total (h : Hand) (hv : Hand.ValidRanks h) (hl : h.length < maxHandLen) :
    ((∃ t ∈ Hand.totals h, t ≤ 21) →
        Hand.Score h ∈ Hand.totals h ∧ Hand.Score h ≤ 21 ∧
          ∀ t ∈ Hand.totals h, t ≤ 21 → t ≤ Hand.Score h) ∧
    ((¬ ∃ t ∈ Hand.totals h, t ≤ 21) → Hand.Score h = Hand.lowTotal h) ∧
    (h.length = 2 → Hand.aces h = 2 → Hand.Score h = 12 ∧ Hand.Score h ≠ 22) := by
  have hc := Score_closed h hv hl
  have hb := lowTotal_bounds h hv
  refine ⟨?_, ?_, ?_⟩
  · rintro ⟨t, ht, ht21⟩
    obtain ⟨k, hk, rfl⟩ := (mem_totals h _).1 ht
    have hlow : Hand.lowTotal h ≤ 21 := by omega
    refine ⟨?_, ?_, ?_⟩
    · rw [hc, mem_totals]
      split
      · next hcond => exact ⟨1, hcond.1, by simp⟩
      · exact ⟨0, Nat.zero_le _, by simp⟩
    · rw [hc]; split
      · next hcond => omega
      · exact hlow
    · intro u hu hu21
      obtain ⟨j, hj, rfl⟩ := (mem_totals h _).1 hu
      rw [hc]
      split
      · next hcond =>
        have : j ≤ 1 := by
          by_contra hcon
          have h2 : (2 : Int) ≤ j := by omega
          omega
        have : (j : Int) ≤ 1 := by exact_mod_cast this
        omega
      · next hcond =>
        have : j = 0 := by
          by_contra hcon
          have h1 : (1 : Int) ≤ j := by omega
          exact hcond ⟨by omega, by omega⟩
        subst this; simp
  · intro hno
    rw [hc, if_neg]
    rintro ⟨_, h11⟩
    exact hno ⟨Hand.lowTotal h, (mem_totals h _).2 ⟨0, Nat.zero_le _, by simp⟩, by omega⟩
  · intro h2 ha
    have hlt : Hand.lowTotal h = 2 := by
      match h, h2, ha with
      | [a, b], _, ha =>
        by_cases ha1 : a.Rank = Ace <;> by_cases hb1 : b.Rank = Ace <;>
          simp [Hand.aces, List.countP_cons, ha1, hb1] at ha
        simp [Hand.lowTotal, Rank.Value, ha1, hb1]
    rw [hc, hlt, if_pos ⟨by omega, by omega⟩]
    constructor <;> omega

/-- Witness for C1 at the hand A♠ A♥ 9♣. -/
theorem Score_best_total_witness :
    Hand.ValidRanks [⟨Spade, Ace⟩, ⟨Heart, Ace⟩, ⟨Club, Nine⟩] ∧
    [(⟨Spade, Ace⟩ : Card), ⟨Heart, Ace⟩, ⟨Club, Nine⟩].length < maxHandLen ∧
    (((∃ t ∈ Hand.totals [⟨Spade, Ace⟩, ⟨Heart, Ace⟩, ⟨Club, Nine⟩], t ≤ 21) →
        Hand.Score [⟨Spade, Ace⟩, ⟨Heart, Ace⟩, ⟨Club, Nine⟩] ∈
            Hand.totals [⟨Spade, Ace⟩, ⟨Heart, Ace⟩, ⟨Club, Nine⟩] ∧
          Hand.Score [⟨Spade, Ace⟩, ⟨Heart, Ace⟩, ⟨Club, Nine⟩] ≤ 21 ∧
          ∀ t ∈ Hand.totals [⟨Spade, Ace⟩, ⟨Heart, Ace⟩, ⟨Club, Nine⟩], t ≤ 21 →
            t ≤ Hand.Score [⟨Spade, Ace⟩, ⟨Heart, Ace⟩, ⟨Club, Nine⟩]) ∧
      ((¬ ∃ t ∈ Hand.totals [⟨Spade, Ace⟩, ⟨Heart, Ace⟩, ⟨Club, Nine⟩], t ≤ 21) →
        Hand.Score [⟨Spade, Ace⟩, ⟨Heart, Ace⟩, ⟨Club, Nine⟩] =
          Hand.lowTotal [⟨Spade, Ace⟩, ⟨Heart, Ace⟩, ⟨Club, Nine⟩]) ∧
      ([(⟨Spade, Ace⟩ : Card), ⟨Heart, Ace⟩, ⟨Club, Nine⟩].length = 2 →
        Hand.aces [⟨Spade, Ace⟩, ⟨Heart, Ace⟩, ⟨Club, Nine⟩] = 2 →
        Hand.Score [⟨Spade, Ace⟩, ⟨Heart, Ace⟩, ⟨Club, Nine⟩] = 12 ∧
          Hand.Score [⟨Spade, Ace⟩, ⟨Heart, Ace⟩, ⟨Club, Nine⟩] ≠ 22)) :=
  ⟨by decide, by decide,
    Score_best_total [⟨Spade, Ace⟩, ⟨Heart, Ace⟩, ⟨Club, Nine⟩] (by decide) (by decide)⟩

theorem lowTotal_perm {h h' : Hand} (hp : List.Perm h' h) :
    Hand.lowTotal h' = Hand.lowTotal h := by
  unfold Hand.lowTotal
  exact (hp.map _).sum_eq

theorem aces_perm {h h' : Hand} (hp : List.Perm h' h) : Hand.aces h' = Hand.aces h := by
  unfold Hand.aces
  exact hp.countP_eq _

/-- C2: Score, IsBust and IsBlackjack give the same answer on a hand and on any
reordering of it. -/
theorem Score_perm (h h' : Hand) (hp : List.Perm h' h) :
    Hand.Score h' = Hand.Score h ∧ Hand.IsBust h' = Hand.IsBust h ∧
      Hand.IsBlackjack h' = Hand.IsBlackjack h := by
  have hs : Hand.Score h' = Hand.Score h := by
    rw [Score_eq_upgrade, Score_eq_upgrade, lowTotal_perm hp, aces_perm hp]
  refine ⟨hs, ?_, ?_⟩
  · unfold Hand.IsBust; rw [hs]
  · unfold Hand.IsBlackjack; rw [hs, hp.length_eq]

/-- Witness for C2: K♥ A♠ 5♦ against its reordering 5♦ K♥ A♠. -/
theorem Score_perm_witness :
    List.Perm [(⟨Diamond, Five⟩ : Card), ⟨Heart, King⟩, ⟨Spade, Ace⟩]
        [⟨Heart, King⟩, ⟨Spade, Ace⟩, ⟨Diamond, Five⟩] ∧
      (Hand.Score [⟨Diamond, Five⟩, ⟨Heart, King⟩, ⟨Spade, Ace⟩] =
          Hand.Score [⟨Heart, King⟩, ⟨Spade, Ace⟩, ⟨Diamond, Five⟩] ∧
        Hand.IsBust [⟨Diamond, Five⟩, ⟨Heart, King⟩, ⟨Spade, Ace⟩] =
          Hand.IsBust [⟨Heart, King⟩, ⟨Spade, Ace⟩, ⟨Diamond, Five⟩] ∧
        Hand.IsBlackjack [⟨Diamond, Five⟩, ⟨Heart, King⟩, ⟨Spade, Ace⟩] =
          Hand.IsBlackjack [⟨Heart, King⟩, ⟨Spade, Ace⟩, ⟨Diamond, Five⟩]) :=
  ⟨by decide,
    Score_perm [⟨Heart, King⟩, ⟨Spade, Ace⟩, ⟨Diamond, Five⟩]
      [⟨Diamond, Five⟩, ⟨Heart, King⟩, ⟨Spade, Ace⟩] (by decide)⟩

/-- C3: a hand with exactly one Ace whose other cards have fixed values summing
to r scores r + 11 when r is at most 10 and r + 1 when r exceeds 10. -/
theorem Score_one_ace (h : Hand) (hv : Hand.ValidRanks h) (hl : h.length < maxHandLen)
    (h1 : Hand.aces h = 1) :
    (Hand.fixedTotal (Hand.nonAces h) ≤ 10 →
        Hand.Score h = Hand.fixedTotal (Hand.nonAces h) + 11) ∧
    (Hand.fixedTotal (Hand.nonAces h) > 10 →
        Hand.Score h = Hand.fixedTotal (Hand.nonAces h) + 1) := by
  have hc := Score_closed h hv hl
  have hs := lowTotal_split h
  rw [h1] at hs hc
  constructor
  · intro hr
    rw [hc, if_pos ⟨le_refl _, by omega⟩]
    omega
  · intro hr
    rw [hc, if_neg (by intro hcon; omega)]
    omega

/-- Witness for C3: A♠ 4♦ 5♣ (soft 20). -/
theorem Score_one_ace_witness :
    Hand.ValidRanks [⟨Spade, Ace⟩, ⟨Diamond, Four⟩, ⟨Club, Five⟩] ∧
    Hand.aces [⟨Spade, Ace⟩, ⟨Diamond, Four⟩, ⟨Club, Five⟩] = 1 ∧
    ((Hand.fixedTotal (Hand.nonAces [⟨Spade, Ace⟩, ⟨Diamond, Four⟩, ⟨Club, Five⟩]) ≤ 10 →
        Hand.Score [⟨Spade, Ace⟩, ⟨Diamond, Four⟩, ⟨Club, Five⟩] =
          Hand.fixedTotal (Hand.nonAces [⟨Spade, Ace⟩, ⟨Diamond, Four⟩, ⟨Club, Five⟩]) + 11) ∧
      (Hand.fixedTotal (Hand.nonAces [⟨Spade, Ace⟩, ⟨Diamond, Four⟩, ⟨Club, Five⟩]) > 10 →
        Hand.Score [⟨Spade, Ace⟩, ⟨Diamond, Four⟩, ⟨Club, Five⟩] =
          Hand.fixedTotal (Hand.nonAces [⟨Spade, Ace⟩, ⟨Diamond, Four⟩, ⟨Club, Five⟩]) + 1)) :=
  ⟨by decide, by decide,
    Score_one_ace [⟨Spade, Ace⟩, ⟨Diamond, Four⟩, ⟨Club, Five⟩] (by decide) (by decide)
      (by decide)⟩

/-- C4: a hand of ranks Two..King only (the empty hand included) scores the sum
of the fixed values of its cards, 10 for Jack, Queen and King and n for a numeral n. -/
theorem Score_no_ace (h : Hand) (hv : ∀ c ∈ h, Two ≤ c.Rank ∧ c.Rank ≤ King)
    (hl : h.length < maxHandLen) :
    Hand.Score h = Hand.fixedTotal h := by
  have hn : ∀ c ∈ h, c.Rank ≠ Ace := by
    intro c hc he
    have := (hv c hc).1
    rw [he] at this
    exact absurd this (by decide)
  have hvr : Hand.ValidRanks h := by
    intro c hc
    have := hv c hc
    refine ⟨?_, this.2⟩
    have h12 : Ace ≤ Two := by decide
    exact le_trans h12 this.1
  rw [Score_closed h hvr hl, aces_eq_zero h hn, if_neg (by simp), lowTotal_split,
    aces_eq_zero h hn, nonAces_eq_self h hn]
  simp

/-- Witness for C4: K♠ 7♥ 2♣ scores 19. -/
theorem Score_no_ace_witness :
    (∀ c ∈ [(⟨Spade, King⟩ : Card), ⟨Heart, Seven⟩, ⟨Club, Two⟩], Two ≤ c.Rank ∧ c.Rank ≤ King) ∧
    Hand.Score [⟨Spade, King⟩, ⟨Heart, Seven⟩, ⟨Club, Two⟩] =
      Hand.fixedTotal [⟨Spade, King⟩, ⟨Heart, Seven⟩, ⟨Club, Two⟩] :=
  ⟨by decide, Score_no_ace [⟨Spade, King⟩, ⟨Heart, Seven⟩, ⟨Club, Two⟩] (by decide) (by decide)⟩

/-- C5: IsBlackjack holds exactly for two-card hands scoring 21; a hand of any
other size is no blackjack, 7 7 7 scores 21 without being one, and Ace King is
one. -/
theorem IsBlackjack_iff (h : Hand) :
    (Hand.IsBlackjack h = true ↔ h.length = 2 ∧ Hand.Score h = 21) ∧
    (h.length ≠ 2 → Hand.IsBlackjack h = false) ∧
    (Hand.Score [⟨Spade, Seven⟩, ⟨Heart, Seven⟩, ⟨Club, Seven⟩] = 21 ∧
      Hand.IsBlackjack [⟨Spade, Seven⟩, ⟨Heart, Seven⟩, ⟨Club, Seven⟩] = false) ∧
    (Hand.Score [⟨Spade, Ace⟩, ⟨Heart, King⟩] = 21 ∧
      Hand.IsBlackjack [⟨Spade, Ace⟩, ⟨Heart, King⟩] = true) := by
  refine ⟨?_, ?_, by decide, by decide⟩
  · simp [Hand.IsBlackjack]
  · intro hne
    simp [Hand.IsBlackjack, hne]

/-- C6: IsBust is Score above 21, which on ranks Ace..King happens exactly when
the all-Aces-low total is above 21; a score raised above the low total by an
upgraded Ace stays within 21. -/
theorem IsBust_iff (h : Hand) (hv : Hand.ValidRanks h) (hl : h.length < maxHandLen) :
    (Hand.IsBust h = true ↔ Hand.Score h > 21) ∧
    (Hand.Score h > 21 ↔ Hand.lowTotal h > 21) ∧
    (Hand.Score h ≠ Hand.lowTotal h → Hand.Score h ≤ 21) := by
  have hc := Score_closed h hv hl
  refine ⟨by simp [Hand.IsBust], ?_, ?_⟩
  · rw [hc]
    split
    · next hcond => constructor <;> intro <;> omega
    · exact Iff.rfl
  · rw [hc]
    split
    · next hcond => intro _; omega
    · intro hne; exact absurd rfl hne

/-- Witness for C6: 10♣ 9♦ 5♥ is bust at 24. -/
theorem IsBust_iff_witness :
    Hand.ValidRanks [⟨Club, Ten⟩, ⟨Diamond, Nine⟩, ⟨Heart, Five⟩] ∧
    ((Hand.IsBust [⟨Club, Ten⟩, ⟨Diamond, Nine⟩, ⟨Heart, Five⟩] = true ↔
        Hand.Score [⟨Club, Ten⟩, ⟨Diamond, Nine⟩, ⟨Heart, Five⟩] > 21) ∧
      (Hand.Score [⟨Club, Ten⟩, ⟨Diamond, Nine⟩, ⟨Heart, Five⟩] > 21 ↔
        Hand.lowTotal [⟨Club, Ten⟩, ⟨Diamond, Nine⟩, ⟨Heart, Five⟩] > 21) ∧
      (Hand.Score [⟨Club, Ten⟩, ⟨Diamond, Nine⟩, ⟨Heart, Five⟩] ≠
          Hand.lowTotal [⟨Club, Ten⟩, ⟨Diamond, Nine⟩, ⟨Heart, Five⟩] →
        Hand.Score [⟨Club, Ten⟩, ⟨Diamond, Nine⟩, ⟨Heart, Five⟩] ≤ 21)) :=
  ⟨by decide,
    IsBust_iff [⟨Club, Ten⟩, ⟨Diamond, Nine⟩, ⟨Heart, Five⟩] (by decide) (by decide)⟩

/-! ## Deck -/

/-- C7: Draw on an empty deck fails with the empty-deck error and leaves the
deck empty; on a deck of N + 1 cards it returns the first card with no error
and leaves the other N cards in their order. -/
theorem Draw_spec (d : Deck) :
    (d.length = 0 →
      (Deck.Draw d).2.1 = some (GoError.errorf "deck is empty") ∧ (Deck.Draw d).2.2 = []) ∧
    (∀ n : Nat, d.length = n + 1 →
      ∃ c rest, d = c :: rest ∧ Deck.Draw d = (c, none, rest) ∧ rest.length = n) := by
  cases d with
  | nil => simp [Deck.Draw]
  | cons c rest =>
    refine ⟨by simp, ?_⟩
    intro n hn
    exact ⟨c, rest, rfl, by simp [Deck.Draw], by simpa using hn⟩

/-- Draw on a non-empty deck, as a rewriting rule. -/
theorem Draw_cons (c : Card) (rest : Deck) : Deck.Draw (c :: rest) = (c, none, rest) := by
  simp [Deck.Draw]

theorem Draw_nil : Deck.Draw [] = (Card.zero, some (GoError.errorf "deck is empty"), []) := by
  simp [Deck.Draw]

theorem NewDeck_eq : NewDeck = (List.range 52).map canonicalCard := by decide

/-- C8: NewDeck has 52 cards, no duplicate, every suit and rank combination, and
the card at index i has suit i / 13 and rank i mod 13 + 1. -/
theorem NewDeck_spec :
    NewDeck.length = 52 ∧ NewDeck.Nodup ∧
    (∀ s ∈ [Spade, Heart, Diamond, Club],
      ∀ r ∈ [Ace, Two, Three, Four, Five, Six, Seven, Eight, Nine, Ten, Jack, Queen, King],
        (⟨s, r⟩ : Card) ∈ NewDeck) ∧
    (∀ i : Nat, i < 52 →
      NewDeck[i]? = some (⟨((i / 13 : Nat) : Int), ((i % 13 + 1 : Nat) : Int)⟩ : Card)) ∧
    (∀ c ∈ NewDeck, c.Suit ∈ [Spade, Heart, Diamond, Club] ∧ Ace ≤ c.Rank ∧ c.Rank ≤ King) := by
  refine ⟨by decide, by decide, by decide, ?_, by decide⟩
  intro i hi
  rw [NewDeck_eq, List.getElem?_map, List.getElem?_range hi]
  rfl

/-- Writing two elements of a list into the position of the other leaves every
element count unchanged. -/
theorem count_set_set (l : List Card) (i j : Nat) (hi : i < l.length) (hj : j < l.length)
    (b : Card) : ((l.set i l[j]).set j l[i]).count b = l.count b := by
  have hj' : j < (l.set i l[j]).length := by simpa using hj
  have hget : (l.set i l[j])[j] = l[j] := by
    rw [List.getElem_set]
    split
    · rfl
    · rfl
  rw [List.count_set _ _ _ _ hj', List.count_set _ _ _ _ hi, hget]
  have hpos : (if l[i] == b then 1 else 0) ≤ l.count b := by
    split
    · next hb =>
      have hb' : l[i] = b := by simpa using hb
      have hm : b ∈ l := hb' ▸ List.getElem_mem hi
      exact List.count_pos_iff.2 hm
    · exact Nat.zero_le _
  omega

theorem set_set_perm (l : List Card) (i j : Nat) (hi : i < l.length) (hj : j < l.length) :
    List.Perm ((l.set i l[j]).set j l[i]) l :=
  List.perm_iff_count.2 (fun b => count_set_set l i j hi hj b)

theorem index_eq_some {d : Deck} {i : Int} {a : Card} (h : Deck.index d i = some a) :
    ∃ hi : i.toNat < d.length, d[i.toNat] = a := by
  unfold Deck.index at h
  split at h
  · exact List.getElem?_eq_some_iff.1 h
  · cases h

theorem swap_perm {d d' : Deck} {i j : Int} (h : Deck.swap d i j = some d') :
    List.Perm d' d := by
  unfold Deck.swap at h
  split at h
  · next a b ha hb =>
    obtain ⟨hi, rfl⟩ := index_eq_some ha
    obtain ⟨hj, rfl⟩ := index_eq_some hb
    cases h
    exact set_set_perm d _ _ hi hj
  · cases h

theorem swap_isSome {d : Deck} {i j : Int} (hi : 0 ≤ i ∧ i < d.length)
    (hj : 0 ≤ j ∧ j < d.length) : ∃ d', Deck.swap d i j = some d' := by
  have h1 : i.toNat < d.length := by omega
  have h2 : j.toNat < d.length := by omega
  unfold Deck.swap Deck.index
  rw [if_pos hi.1, if_pos hj.1, List.getElem?_eq_getElem h1, List.getElem?_eq_getElem h2]
  exact ⟨_, rfl⟩

theorem Shuffle_perm_aux (swaps : List (Int × Int)) :
    ∀ d d' : Deck, Deck.Shuffle d swaps = some d' → List.Perm d' d := by
  induction swaps with
  | nil =>
    intro d d' h
    simp only [Deck.Shuffle] at h
    cases h
    exact List.Perm.refl _
  | cons p rest ih =>
    intro d d' h
    obtain ⟨i, j⟩ := p
    simp only [Deck.Shuffle] at h
    split at h
    · cases h
    · next d1 hs => exact (ih d1 d' h).trans (swap_perm hs)

theorem Shuffle_isSome_aux (swaps : List (Int × Int)) :
    ∀ d : Deck, (∀ p ∈ swaps, (0 ≤ p.1 ∧ p.1 < d.length) ∧ (0 ≤ p.2 ∧ p.2 < d.length)) →
      ∃ d', Deck.Shuffle d swaps = some d' := by
  induction swaps with
  | nil => intro d _; exact ⟨d, rfl⟩
  | cons p rest ih =>
    intro d hr
    obtain ⟨i, j⟩ := p
    have hp := hr (i, j) (List.mem_cons_self _ _)
    obtain ⟨d1, hd1⟩ := swap_isSome hp.1 hp.2
    have hlen : d1.length = d.length := (swap_perm hd1).length_eq
    obtain ⟨d2, hd2⟩ := ih d1 (fun p hpm => by
      rw [hlen]; exact hr p (List.mem_cons_of_mem _ hpm))
    refine ⟨d2, ?_⟩
    simp only [Deck.Shuffle, hd1]
    exact hd2

/-- C9: whatever index pairs the random source makes Shuffle swap, a completed
Shuffle leaves a deck of the same length holding the same multiset of cards,
and Shuffle completes whenever the pairs lie within the deck. -/
theorem Shuffle_perm (d : Deck) (swaps : List (Int × Int)) :
    (∀ d', Deck.Shuffle d swaps = some d' →
      d'.length = d.length ∧ List.Perm d' d ∧ (d' : Multiset Card) = (d : Multiset Card)) ∧
    ((∀ p ∈ swaps, (0 ≤ p.1 ∧ p.1 < d.length) ∧ (0 ≤ p.2 ∧ p.2 < d.length)) →
      ∃ d', Deck.Shuffle d swaps = some d') := by
  refine ⟨?_, Shuffle_isSome_aux swaps d⟩
  intro d' h
  have hp := Shuffle_perm_aux swaps d d' h
  exact ⟨hp.length_eq, hp, Multiset.coe_eq_coe.2 hp⟩

/-! ## Dealing -/

/-- Dealing from a deck of at least four cards. -/
theorem DealInitialHands_four (g : Game) (c1 c2 c3 c4 : Card) (rest : Deck)
    (hd : g.Deck = c1 :: c2 :: c3 :: c4 :: rest) :
    Game.DealInitialHands g =
      (none, { g with Deck := rest, PlayerHand := g.PlayerHand ++ [c1, c3],
                      DealerHand := g.DealerHand ++ [c2, c4] }) := by
  simp [Game.DealInitialHands, Game.dealLoop, Game.dealBody, hd, Draw_cons, Hand.AddCard]

/-- Dealing from a deck of fewer than four cards fails. -/
theorem DealInitialHands_short (g : Game) (hd : g.Deck.length < 4) :
    (Game.DealInitialHands g).1 ≠ none := by
  obtain ⟨deck, ph, dh, st, ai⟩ := g
  match deck, hd with
  | [], _ => simp [Game.DealInitialHands, Game.dealLoop, Game.dealBody, Draw_nil]
  | [a], _ =>
    simp [Game.DealInitialHands, Game.dealLoop, Game.dealBody, Draw_cons, Draw_nil]
  | [a, b], _ =>
    simp [Game.DealInitialHands, Game.dealLoop, Game.dealBody, Draw_cons, Draw_nil]
  | [a, b, c], _ =>
    simp [Game.DealInitialHands, Game.dealLoop, Game.dealBody, Draw_cons, Draw_nil]

theorem NewGame_deck_perm {ai : Bool} {swaps : List (Int × Int)} {g : Game}
    (h : NewGame ai swaps = some g) :
    List.Perm g.Deck NewDeck ∧ g.PlayerHand = [] ∧ g.DealerHand = [] ∧
      g.GameState = PlayerTurn ∧ g.AIDisabled = ai := by
  unfold NewGame at h
  split at h
  · cases h
  · next deck hs =>
    cases h
    exact ⟨Shuffle_perm_aux swaps NewDeck deck hs, rfl, rfl, rfl, rfl⟩

/-- C10: DealInitialHands on a deck c1 c2 c3 c4 rest returns no error, appends
c1 c3 to the player, c2 c4 to the dealer, leaves rest as the deck and does not
touch the state; it returns an error exactly on decks of fewer than four cards,
hence never on a game made by NewGame. -/
theorem DealInitialHands_spec :
    (∀ (g : Game) (c1 c2 c3 c4 : Card) (rest : Deck), g.Deck = c1 :: c2 :: c3 :: c4 :: rest →
      (Game.DealInitialHands g).1 = none ∧
      (Game.DealInitialHands g).2.PlayerHand = g.PlayerHand ++ [c1, c3] ∧
      (Game.DealInitialHands g).2.DealerHand = g.DealerHand ++ [c2, c4] ∧
      (Game.DealInitialHands g).2.Deck = rest ∧
      (Game.DealInitialHands g).2.GameState = g.GameState ∧
      (Game.DealInitialHands g).2.AIDisabled = g.AIDisabled) ∧
    (∀ g : Game, (Game.DealInitialHands g).1 ≠ none ↔ g.Deck.length < 4) ∧
    (∀ (ai : Bool) (swaps : List (Int × Int)) (g : Game), NewGame ai swaps = some g →
      g.Deck.length = 52 ∧ (Game.DealInitialHands g).1 = none) ∧
    (∀ (ai : Bool) (swaps : List (Int × Int)),
      (∀ p ∈ swaps, (0 ≤ p.1 ∧ p.1 < 52) ∧ (0 ≤ p.2 ∧ p.2 < 52)) →
        ∃ g, NewGame ai swaps = some g) := by
  have hiff : ∀ g : Game, (Game.DealInitialHands g).1 ≠ none ↔ g.Deck.length < 4 := by
    intro g
    constructor
    · intro he
      by_contra hlen
      obtain ⟨deck, ph, dh, st, ai⟩ := g
      match deck, hlen with
      | c1 :: c2 :: c3 :: c4 :: rest, _ =>
        rw [DealInitialHands_four _ c1 c2 c3 c4 rest rfl] at he
        exact he rfl
      | [], hlen => exact hlen (by simp)
      | [_], hlen => exact hlen (by simp)
      | [_, _], hlen => exact hlen (by simp)
      | [_, _, _], hlen => exact hlen (by simp)
    · exact DealInitialHands_short g
  refine ⟨?_, hiff, ?_, ?_⟩
  · intro g c1 c2 c3 c4 rest hd
    rw [DealInitialHands_four g c1 c2 c3 c4 rest hd]
    exact ⟨rfl, rfl, rfl, rfl, rfl, rfl⟩
  · intro ai swaps g hg
    have hp := (NewGame_deck_perm hg).1
    have hlen : g.Deck.length = 52 := by
      rw [hp.length_eq]; decide
    refine ⟨hlen, ?_⟩
    by_contra he
    have := (hiff g).1 he
    omega
  · intro ai swaps hr
    have hlen : NewDeck.length = 52 := by decide
    obtain ⟨d', hd'⟩ := Shuffle_isSome_aux swaps NewDeck (by
      intro p hp
      rw [hlen]
      exact_mod_cast hr p hp)
    exact ⟨{ Deck := d', PlayerHand := [], DealerHand := [], GameState := PlayerTurn,
             AIDisabled := ai }, by simp [NewGame, hd']⟩

/-! ## The player turn -/

theorem PlayerAction_hit_cons (g : Game) (action : String) (ha : action = "h" ∨ action = "hit")
    (c : Card) (rest : Deck) (hd : g.Deck = c :: rest) :
    Game.PlayerAction g action =
      if Hand.IsBust (g.PlayerHand ++ [c]) then
        ⟨none, { g with Deck := rest, PlayerHand := g.PlayerHand ++ [c], GameState := GameOver },
          [PlayerBust]⟩
      else
        ⟨none, { g with Deck := rest, PlayerHand := g.PlayerHand ++ [c] }, []⟩ := by
  simp only [Game.PlayerAction, if_pos ha, hd, Draw_cons, Hand.AddCard]

theorem PlayerAction_hit_nil (g : Game) (action : String) (ha : action = "h" ∨ action = "hit")
    (hd : g.Deck = []) :
    Game.PlayerAction g action =
      ⟨some (GoError.wrapf "ヒット中にエラー発生: %w" (GoError.errorf "deck is empty")), g, []⟩ := by
  obtain ⟨deck, ph, dh, st, ai⟩ := g
  simp only at hd
  subst hd
  simp only [Game.PlayerAction, if_pos ha, Draw_nil]

theorem PlayerAction_stand (g : Game) (action : String) (ha : action = "s" ∨ action = "stand") :
    Game.PlayerAction g action = ⟨none, { g with GameState := DealerTurn }, []⟩ := by
  have hn : ¬ (action = "h" ∨ action = "hit") := by
    rcases ha with rfl | rfl <;> decide
  simp only [Game.PlayerAction, if_neg hn, if_pos ha]

theorem PlayerAction_other (g : Game) (action : String)
    (h1 : ¬ (action = "h" ∨ action = "hit")) (h2 : ¬ (action = "s" ∨ action = "stand")) :
    Game.PlayerAction g action = ⟨none, g, []⟩ := by
  simp only [Game.PlayerAction, if_neg h1, if_neg h2]

/-- C11: a hit in state PlayerTurn on a deck c rest returns no error, moves c to
the end of the player hand and leaves the dealer hand alone; a bust hand ends
the game with PlayerBust emitted, otherwise the state stays PlayerTurn and
nothing is emitted. On an empty deck the wrapped empty-deck error is returned
and the game is unchanged. -/
theorem PlayerAction_hit (g : Game) (action : String) (ha : action = "h" ∨ action = "hit")
    (hs : g.GameState = PlayerTurn) :
    (∀ (c : Card) (rest : Deck), g.Deck = c :: rest →
      (Game.PlayerAction g action).err = none ∧
      (Game.PlayerAction g action).game.PlayerHand = g.PlayerHand ++ [c] ∧
      (Game.PlayerAction g action).game.Deck = rest ∧
      (Game.PlayerAction g action).game.DealerHand = g.DealerHand ∧
      (Hand.IsBust (g.PlayerHand ++ [c]) = true →
        (Game.PlayerAction g action).game.GameState = GameOver ∧
        (Game.PlayerAction g action).emitted = [PlayerBust]) ∧
      (Hand.IsBust (g.PlayerHand ++ [c]) = false →
        (Game.PlayerAction g action).game.GameState = PlayerTurn ∧
        (Game.PlayerAction g action).emitted = [])) ∧
    (g.Deck = [] →
      (Game.PlayerAction g action).err =
        some (GoError.wrapf "ヒット中にエラー発生: %w" (GoError.errorf "deck is empty")) ∧
      (Game.PlayerAction g action).game = g ∧
      (Game.PlayerAction g action).emitted = []) := by
  constructor
  · intro c rest hd
    rw [PlayerAction_hit_cons g action ha c rest hd]
    cases hb : Hand.IsBust (g.PlayerHand ++ [c])
    · simp [hs]
    · simp
  · intro hd
    rw [PlayerAction_hit_nil g action ha hd]
    exact ⟨rfl, rfl, rfl⟩

/-- Witness for C11: 10♣ 9♦ hits 5♥ and busts at 24. -/
theorem PlayerAction_hit_witness :
    (Game.PlayerAction
        ⟨[⟨Heart, Five⟩, ⟨Spade, Two⟩], [⟨Club, Ten⟩, ⟨Diamond, Nine⟩],
          [⟨Spade, Six⟩, ⟨Spade, King⟩], PlayerTurn, true⟩ "hit").game.GameState = GameOver ∧
    (Game.PlayerAction
        ⟨[⟨Heart, Five⟩, ⟨Spade, Two⟩], [⟨Club, Ten⟩, ⟨Diamond, Nine⟩],
          [⟨Spade, Six⟩, ⟨Spade, King⟩], PlayerTurn, true⟩ "hit").emitted = [PlayerBust] :=
  ((PlayerAction_hit
      ⟨[⟨Heart, Five⟩, ⟨Spade, Two⟩], [⟨Club, Ten⟩, ⟨Diamond, Nine⟩],
        [⟨Spade, Six⟩, ⟨Spade, King⟩], PlayerTurn, true⟩ "hit" (Or.inr rfl) rfl).1
    ⟨Heart, Five⟩ [⟨Spade, Two⟩] rfl).2.2.2.2.1 (by decide)

/-- C12: a stand returns no error, sets the state to DealerTurn and leaves the
deck and both hands as they were; an action that is none of h, hit, s, stand
returns no error and leaves the whole game as it was. -/
theorem PlayerAction_no_draw (g : Game) (action : String) :
    ((action = "s" ∨ action = "stand") →
      (Game.PlayerAction g action).err = none ∧
      (Game.PlayerAction g action).game.GameState = DealerTurn ∧
      (Game.PlayerAction g action).game.Deck = g.Deck ∧
      (Game.PlayerAction g action).game.PlayerHand = g.PlayerHand ∧
      (Game.PlayerAction g action).game.DealerHand = g.DealerHand ∧
      (Game.PlayerAction g action).emitted = []) ∧
    ((action ≠ "h" ∧ action ≠ "hit" ∧ action ≠ "s" ∧ action ≠ "stand") →
      (Game.PlayerAction g action).err = none ∧
      (Game.PlayerAction g action).game = g ∧
      (Game.PlayerAction g action).emitted = []) := by
  constructor
  · intro ha
    rw [PlayerAction_stand g action ha]
    exact ⟨rfl, rfl, rfl, rfl, rfl, rfl⟩
  · rintro ⟨h1, h2, h3, h4⟩
    rw [PlayerAction_other g action (by tauto) (by tauto)]
    exact ⟨rfl, rfl, rfl⟩

/-! ## The dealer turn -/

/-- The dealer stands after exactly `k` cards when `k` is the first count at
which the score reaches 17. -/
theorem dealerLoop_stand (k : Nat) : ∀ (fuel : Nat) (g : Game), k ≤ g.Deck.length → k < fuel →
    (∀ j < k, Hand.Score (g.DealerHand ++ g.Deck.take j) < 17) →
    17 ≤ Hand.Score (g.DealerHand ++ g.Deck.take k) →
    Game.dealerLoop fuel g =
      some ⟨none,
        { g with Deck := g.Deck.drop k, DealerHand := g.DealerHand ++ g.Deck.take k,
                 GameState := GameOver },
        if 1 ≤ k ∧ Hand.IsBust (g.DealerHand ++ g.Deck.take k) = true then [DealerBust]
        else []⟩ := by
  induction k with
  | zero =>
    intro fuel g _ hf _ h17
    obtain ⟨f, rfl⟩ : ∃ f, fuel = f + 1 := ⟨fuel - 1, by omega⟩
    simp only [List.take_zero, List.append_nil] at h17
    simp only [Game.dealerLoop, if_neg (not_lt.2 h17), List.drop_zero, List.take_zero,
      List.append_nil]
    by_cases hs : g.GameState = GameOver
    · rw [if_neg (not_not.2 hs)]
      obtain ⟨deck, ph, dh, st, ai⟩ := g
      simp only at hs
      subst hs
      simp
    · rw [if_pos hs]
      simp
  | succ k ih =>
    intro fuel g hk hf hlt h17
    obtain ⟨f, rfl⟩ : ∃ f, fuel = f + 1 := ⟨fuel - 1, by omega⟩
    obtain ⟨deck, ph, dh, st, ai⟩ := g
    cases deck with
    | nil => simp at hk
    | cons c rest =>
      have h0 := hlt 0 (Nat.succ_pos k)
      simp only [List.take_zero, List.append_nil] at h0
      simp only [Game.dealerLoop, if_pos h0, Draw_cons, Hand.AddCard]
      simp only [List.take_succ_cons, List.drop_succ_cons] at h17 ⊢
      by_cases hb : Hand.IsBust (dh ++ [c]) = true
      · have hk0 : k = 0 := by
          by_contra hne
          have h1 := hlt 1 (by omega)
          simp only [List.take_succ_cons, List.take_zero] at h1
          have : Hand.Score (dh ++ [c]) > 21 := by simpa [Hand.IsBust] using hb
          omega
        subst hk0
        simp [hb]
      · have hb' : Hand.IsBust (dh ++ [c]) = false := by simpa using hb
        rw [if_neg hb]
        have hrec := ih f ⟨rest, ph, dh ++ [c], st, ai⟩ (by simpa using hk) (by omega)
          (by
            intro j hj
            have := hlt (j + 1) (by omega)
            simpa [List.take_succ_cons] using this)
          (by simpa using h17)
        rw [hrec]
        simp only [List.append_assoc, List.singleton_append]
        congr 2
        by_cases hk0 : k = 0
        · subst hk0
          simp [hb']
        · have : 1 ≤ k := by omega
          simp [this]

/-- The dealer runs out of cards when no prefix of the deck brings the score
to 17. -/
theorem dealerLoop_empty : ∀ (deck : Deck) (fuel : Nat) (g : Game), g.Deck = deck →
    deck.length < fuel →
    (∀ j ≤ deck.length, Hand.Score (g.DealerHand ++ deck.take j) < 17) →
    Game.dealerLoop fuel g =
      some ⟨some (GoError.wrapf "ディーラーのヒット中にエラー発生: %w"
              (GoError.errorf "deck is empty")),
        { g with Deck := [], DealerHand := g.DealerHand ++ deck }, []⟩ := by
  intro deck
  induction deck with
  | nil =>
    intro fuel g hd hf hlt
    obtain ⟨f, rfl⟩ : ∃ f, fuel = f + 1 := ⟨fuel - 1, by simp at hf; omega⟩
    obtain ⟨deck, ph, dh, st, ai⟩ := g
    simp only at hd
    subst hd
    have h0 := hlt 0 (Nat.le_refl _)
    simp only [List.take_zero, List.append_nil] at h0
    simp only [Game.dealerLoop, if_pos h0, Draw_nil, List.append_nil]
  | cons c rest ih =>
    intro fuel g hd hf hlt
    obtain ⟨f, rfl⟩ : ∃ f, fuel = f + 1 := ⟨fuel - 1, by simp at hf; omega⟩
    obtain ⟨deck, ph, dh, st, ai⟩ := g
    simp only at hd
    subst hd
    have h0 := hlt 0 (Nat.zero_le _)
    simp only [List.take_zero, List.append_nil] at h0
    have h1 := hlt 1 (by simp)
    simp only [List.take_succ_cons, List.take_zero] at h1
    have hb : ¬ Hand.IsBust (dh ++ [c]) = true := by
      simp only [Hand.IsBust, decide_eq_true_eq]
      omega
    simp only [Game.dealerLoop, if_pos h0, Draw_cons, Hand.AddCard, if_neg hb]
    rw [ih f ⟨rest, ph, dh ++ [c], st, ai⟩ rfl (by simp at hf; omega) (by
      intro j hj
      have := hlt (j + 1) (by simp; omega)
      simpa [List.take_succ_cons] using this)]
    simp

/-- DealerAction always returns: either it stands after the first `k` cards that
bring the score to 17, or no prefix of the deck does and the draw fails. -/
theorem DealerAction_cases (g : Game) :
    (∃ k, k ≤ g.Deck.length ∧
      (∀ j < k, Hand.Score (g.DealerHand ++ g.Deck.take j) < 17) ∧
      17 ≤ Hand.Score (g.DealerHand ++ g.Deck.take k) ∧
      Game.DealerAction g =
        some ⟨none,
          { g with Deck := g.Deck.drop k, DealerHand := g.DealerHand ++ g.Deck.take k,
                   GameState := GameOver },
          if 1 ≤ k ∧ Hand.IsBust (g.DealerHand ++ g.Deck.take k) = true then [DealerBust]
          else []⟩) ∨
    ((∀ j ≤ g.Deck.length, Hand.Score (g.DealerHand ++ g.Deck.take j) < 17) ∧
      Game.DealerAction g =
        some ⟨some (GoError.wrapf "ディーラーのヒット中にエラー発生: %w"
                (GoError.errorf "deck is empty")),
          { g with Deck := [], DealerHand := g.DealerHand ++ g.Deck }, []⟩) := by
  by_cases hex : ∃ k, k ≤ g.Deck.length ∧ 17 ≤ Hand.Score (g.DealerHand ++ g.Deck.take k)
  · left
    classical
    refine ⟨Nat.find hex, (Nat.find_spec hex).1, ?_, (Nat.find_spec hex).2, ?_⟩
    · intro j hj
      have hmin := Nat.find_min hex hj
      have hjl : j ≤ g.Deck.length := le_trans (le_of_lt hj) (Nat.find_spec hex).1
      by_contra hcon
      exact hmin ⟨hjl, not_lt.1 hcon⟩
    · have hfl := (Nat.find_spec hex).1
      refine dealerLoop_stand (Nat.find hex) (g.Deck.length + 1) g hfl (by omega) ?_
        (Nat.find_spec hex).2
      intro j hj
      have hmin := Nat.find_min hex hj
      have hjl : j ≤ g.Deck.length := le_trans (le_of_lt hj) hfl
      by_contra hcon
      exact hmin ⟨hjl, not_lt.1 hcon⟩
  · right
    have hall : ∀ j ≤ g.Deck.length, Hand.Score (g.DealerHand ++ g.Deck.take j) < 17 := by
      intro j hj
      by_contra hcon
      exact hex ⟨j, hj, not_lt.1 hcon⟩
    exact ⟨hall, dealerLoop_empty g.Deck (g.Deck.length + 1) g rfl (by omega) hall⟩

/-- C13: DealerAction always returns. When k is the least number of cards from
the front of the deck that brings the dealer score to 17 or more, it moves
exactly those k cards to the end of the dealer hand and returns no error with
state GameOver and the player hand untouched, emitting DealerBust exactly when
k is at least 1 and the final hand is bust; k is 0 when the score is already 17
or more and at least 1 when it is 16 or less. When no prefix of the deck reaches
17 it returns the wrapped empty-deck error. -/
theorem DealerAction_spec (g : Game) :
    (∃ o, Game.DealerAction g = some o) ∧
    (∀ k, k ≤ g.Deck.length →
      (∀ j < k, Hand.Score (g.DealerHand ++ g.Deck.take j) < 17) →
      17 ≤ Hand.Score (g.DealerHand ++ g.Deck.take k) →
      Game.DealerAction g =
        some ⟨none,
          { g with Deck := g.Deck.drop k, DealerHand := g.DealerHand ++ g.Deck.take k,
                   GameState := GameOver },
          if 1 ≤ k ∧ Hand.IsBust (g.DealerHand ++ g.Deck.take k) = true then [DealerBust]
          else []⟩) ∧
    (17 ≤ Hand.Score g.DealerHand →
      Game.DealerAction g = some ⟨none, { g with GameState := GameOver }, []⟩) ∧
    (Hand.Score g.DealerHand ≤ 16 → ∀ o, Game.DealerAction g = some o →
      g.DealerHand.length < o.game.DealerHand.length ∨
        (g.Deck = [] ∧ o.err ≠ none)) ∧
    ((∀ j ≤ g.Deck.length, Hand.Score (g.DealerHand ++ g.Deck.take j) < 17) →
      Game.DealerAction g =
        some ⟨some (GoError.wrapf "ディーラーのヒット中にエラー発生: %w"
                (GoError.errorf "deck is empty")),
          { g with Deck := [], DealerHand := g.DealerHand ++ g.Deck }, []⟩) := by
  have hstand : ∀ k, k ≤ g.Deck.length →
      (∀ j < k, Hand.Score (g.DealerHand ++ g.Deck.take j) < 17) →
      17 ≤ Hand.Score (g.DealerHand ++ g.Deck.take k) →
      Game.DealerAction g =
        some ⟨none,
          { g with Deck := g.Deck.drop k, DealerHand := g.DealerHand ++ g.Deck.take k,
                   GameState := GameOver },
          if 1 ≤ k ∧ Hand.IsBust (g.DealerHand ++ g.Deck.take k) = true then [DealerBust]
          else []⟩ :=
    fun k hk hlt h17 => dealerLoop_stand k (g.Deck.length + 1) g hk (by omega) hlt h17
  have hempty : (∀ j ≤ g.Deck.length, Hand.Score (g.DealerHand ++ g.Deck.take j) < 17) →
      Game.DealerAction g =
        some ⟨some (GoError.wrapf "ディーラーのヒット中にエラー発生: %w"
                (GoError.errorf "deck is empty")),
          { g with Deck := [], DealerHand := g.DealerHand ++ g.Deck }, []⟩ :=
    fun hall => dealerLoop_empty g.Deck (g.Deck.length + 1) g rfl (by omega) hall
  refine ⟨?_, hstand, ?_, ?_, hempty⟩
  · rcases DealerAction_cases g with ⟨k, _, _, _, h⟩ | ⟨_, h⟩
    · exact ⟨_, h⟩
    · exact ⟨_, h⟩
  · intro h17
    have := hstand 0 (Nat.zero_le _) (by intro j hj; omega) (by simpa using h17)
    simpa using this
  · intro h16 o ho
    rcases DealerAction_cases g with ⟨k, hk, hlt, h17, h⟩ | ⟨hall, h⟩
    · rw [h] at ho
      cases ho
      left
      have hk1 : 1 ≤ k := by
        by_contra hcon
        have hk0 : k = 0 := by omega
        subst hk0
        simp only [List.take_zero, List.append_nil] at h17
        omega
      simp only [List.length_append, List.length_take]
      omega
    · rw [h] at ho
      cases ho
      by_cases hd : g.Deck = []
      · right
        exact ⟨hd, by simp⟩
      · left
        have : 0 < g.Deck.length := List.length_pos.2 hd
        simp only [List.length_append]
        omega

/-! ## Winner determination -/

/-- C14: DetermineWinner emits one classification fixed by the two scores p and
d, PlayerBust if p > 21, else DealerBust if d > 21, else Push if p = d, else
PlayerWin if p > d, else DealerWin, never a blackjack classification, and
leaves the game as it was; 20 against 20 is a Push. -/
theorem DetermineWinner_spec (g : Game) :
    (Game.DetermineWinner g).1 = g ∧
    (∃ t, (Game.DetermineWinner g).2 = [t] ∧
      t ≠ PlayerBlackjack ∧ t ≠ DealerBlackjack ∧ t ≠ PushBlackjack) ∧
    (Hand.Score g.PlayerHand > 21 → (Game.DetermineWinner g).2 = [PlayerBust]) ∧
    (Hand.Score g.PlayerHand ≤ 21 → Hand.Score g.DealerHand > 21 →
      (Game.DetermineWinner g).2 = [DealerBust]) ∧
    (Hand.Score g.PlayerHand ≤ 21 → Hand.Score g.DealerHand ≤ 21 →
      Hand.Score g.PlayerHand = Hand.Score g.DealerHand →
      (Game.DetermineWinner g).2 = [Push]) ∧
    (Hand.Score g.PlayerHand ≤ 21 → Hand.Score g.DealerHand ≤ 21 →
      Hand.Score g.PlayerHand > Hand.Score g.DealerHand →
      (Game.DetermineWinner g).2 = [PlayerWin]) ∧
    (Hand.Score g.PlayerHand ≤ 21 → Hand.Score g.DealerHand ≤ 21 →
      Hand.Score g.PlayerHand < Hand.Score g.DealerHand →
      (Game.DetermineWinner g).2 = [DealerWin]) ∧
    (Game.DetermineWinner
        ⟨[], [⟨Spade, King⟩, ⟨Heart, Queen⟩], [⟨Club, Ten⟩, ⟨Diamond, Jack⟩], GameOver,
          true⟩).2 = [Push] := by
  refine ⟨rfl, ?_, ?_, ?_, ?_, ?_, ?_, by decide⟩
  · refine ⟨classify (Hand.Score g.PlayerHand) (Hand.Score g.DealerHand), rfl, ?_⟩
    unfold classify
    split_ifs <;> decide
  · intro h1
    simp only [Game.DetermineWinner, classify, if_pos h1]
  · intro h1 h2
    simp only [Game.DetermineWinner, classify, if_neg (not_lt.2 h1), if_pos h2]
  · intro h1 h2 h3
    simp only [Game.DetermineWinner, classify, if_neg (not_lt.2 h1), if_neg (not_lt.2 h2),
      if_pos h3]
  · intro h1 h2 h3
    simp only [Game.DetermineWinner, classify, if_neg (not_lt.2 h1), if_neg (not_lt.2 h2),
      if_neg (ne_of_gt h3), if_pos h3]
  · intro h1 h2 h3
    simp only [Game.DetermineWinner, classify, if_neg (not_lt.2 h1), if_neg (not_lt.2 h2),
      if_neg (ne_of_lt h3), if_neg (not_lt.2 (le_of_lt h3))]

/-! ## The terminal state -/

theorem dealBody_state (g : Game) : (Game.dealBody g).2.GameState = g.GameState := by
  obtain ⟨deck, ph, dh, st, ai⟩ := g
  match deck with
  | [] => simp [Game.dealBody, Draw_nil]
  | [a] => simp [Game.dealBody, Draw_cons, Draw_nil]
  | a :: b :: rest => simp [Game.dealBody, Draw_cons]

theorem dealLoop_state (n : Nat) : ∀ g : Game, (Game.dealLoop n g).2.GameState = g.GameState := by
  induction n with
  | zero => intro g; rfl
  | succ n ih =>
    intro g
    have hb := dealBody_state g
    simp only [Game.dealLoop]
    split
    · next err g' he => rw [he] at hb; exact hb
    · next g' he =>
      rw [he] at hb
      rw [ih g']
      exact hb

/-- Counterexample to C15 as stated: a stand typed in state GameOver moves the
game to DealerTurn. -/
theorem GameOver_left_by_stand :
    (⟨[], [⟨Spade, King⟩, ⟨Heart, Queen⟩], [⟨Club, Ten⟩, ⟨Diamond, Nine⟩], GameOver,
        true⟩ : Game).GameState = GameOver ∧
    (Game.PlayerAction
        ⟨[], [⟨Spade, King⟩, ⟨Heart, Queen⟩], [⟨Club, Ten⟩, ⟨Diamond, Nine⟩], GameOver,
          true⟩ "s").game.GameState = DealerTurn ∧
    (Game.PlayerAction
        ⟨[], [⟨Spade, King⟩, ⟨Heart, Queen⟩], [⟨Club, Ten⟩, ⟨Diamond, Nine⟩], GameOver,
          true⟩ "s").game.GameState ≠ GameOver := by
  decide

/-- C15 amended: from state GameOver the state is still GameOver after
DealInitialHands, after PlayerAction with any action other than s and stand,
after DealerAction (which returns) and after DetermineWinner; PlayerAction with
s or stand sets the state to DealerTurn. -/
theorem GameOver_kept (g : Game) (hs : g.GameState = GameOver) :
    (Game.DealInitialHands g).2.GameState = GameOver ∧
    (∀ action : String, action ≠ "s" → action ≠ "stand" →
      (Game.PlayerAction g action).game.GameState = GameOver) ∧
    (∃ o, Game.DealerAction g = some o ∧ o.game.GameState = GameOver) ∧
    (Game.DetermineWinner g).1.GameState = GameOver ∧
    (∀ action : String, action = "s" ∨ action = "stand" →
      (Game.PlayerAction g action).game.GameState = DealerTurn) := by
  refine ⟨?_, ?_, ?_, hs, ?_⟩
  · rw [Game.DealInitialHands, dealLoop_state, hs]
  · intro action h1 h2
    by_cases ha : action = "h" ∨ action = "hit"
    · obtain ⟨deck, ph, dh, st, ai⟩ := g
      simp only at hs
      subst hs
      cases deck with
      | nil => rw [PlayerAction_hit_nil _ action ha rfl]
      | cons c rest =>
        rw [PlayerAction_hit_cons _ action ha c rest rfl]
        split <;> rfl
    · rw [PlayerAction_other g action ha (by tauto)]
      exact hs
  · rcases DealerAction_cases g with ⟨k, _, _, _, h⟩ | ⟨_, h⟩
    · exact ⟨_, h, rfl⟩
    · exact ⟨_, h, hs⟩
  · intro action ha
    rw [PlayerAction_stand g action ha]

/-- Witness for C15 amended, at a finished game of 20 against 19. -/
theorem GameOver_kept_witness :
    (Game.DealInitialHands
        ⟨[], [⟨Spade, King⟩, ⟨Heart, Queen⟩], [⟨Club, Ten⟩, ⟨Diamond, Nine⟩], GameOver,
          true⟩).2.GameState = GameOver :=
  (GameOver_kept
    ⟨[], [⟨Spade, King⟩, ⟨Heart, Queen⟩], [⟨Club, Ten⟩, ⟨Diamond, Nine⟩], GameOver, true⟩
    rfl).1

/-! ## The blackjack check of the round -/

theorem PlayerTurn_ne_GameOver : PlayerTurn ≠ GameOver := by decide

theorem DealerTurn_ne_GameOver : DealerTurn ≠ GameOver := by decide

theorem GameOver_ne_PlayerTurn : GameOver ≠ PlayerTurn := by decide

theorem GameOver_ne_DealerTurn : GameOver ≠ DealerTurn := by decide

theorem playerLoop_skip (actions : List String) (r : Round)
    (hs : r.game.GameState ≠ PlayerTurn) : playerLoop actions r = r := by
  cases actions with
  | nil => simp only [playerLoop, if_neg hs]
  | cons a rest => simp only [playerLoop, if_neg hs]

theorem dealerStep_skip (r : Round) (hs : r.game.GameState ≠ DealerTurn) : dealerStep r = r := by
  simp only [dealerStep, if_neg hs]

theorem winnerStep_skip (r : Round) (hs : r.initialResultDetermined = true) :
    winnerStep r = r := by
  simp [winnerStep, hs]

/-- A round decided by the blackjack check ends right there. -/
theorem roundAfterDeal_decided (game : Game) (actions : List String) (t : ResultType)
    (hc : initialBlackjackCheck game = ({ game with GameState := GameOver }, [t], true)) :
    roundAfterDeal game actions =
      { game := { game with GameState := GameOver }, emitted := [t], calls := [], errors := [],
        initialResultDetermined := true, completed := true } := by
  simp only [roundAfterDeal, hc]
  rw [playerLoop_skip actions _ GameOver_ne_PlayerTurn]
  simp only [if_true]
  rw [dealerStep_skip _ GameOver_ne_DealerTurn, winnerStep_skip _ rfl]

/-- C16: right after dealing, two blackjacks emit PushBlackjack, a player
blackjack alone PlayerBlackjack, a dealer blackjack alone DealerBlackjack; in
these cases the state becomes GameOver and the round ends with that single
classification and no call of PlayerAction, DealerAction or DetermineWinner.
With no blackjack the check emits nothing and leaves the game, so a state
PlayerTurn stays PlayerTurn. -/
theorem initialBlackjack_spec (game : Game) (actions : List String) :
    (Hand.IsBlackjack game.PlayerHand = true → Hand.IsBlackjack game.DealerHand = true →
      initialBlackjackCheck game = ({ game with GameState := GameOver }, [PushBlackjack], true) ∧
      (roundAfterDeal game actions).emitted = [PushBlackjack] ∧
      (roundAfterDeal game actions).game.GameState = GameOver ∧
      (roundAfterDeal game actions).calls = []) ∧
    (Hand.IsBlackjack game.PlayerHand = true → Hand.IsBlackjack game.DealerHand = false →
      initialBlackjackCheck game =
        ({ game with GameState := GameOver }, [PlayerBlackjack], true) ∧
      (roundAfterDeal game actions).emitted = [PlayerBlackjack] ∧
      (roundAfterDeal game actions).game.GameState = GameOver ∧
      (roundAfterDeal game actions).calls = []) ∧
    (Hand.IsBlackjack game.PlayerHand = false → Hand.IsBlackjack game.DealerHand = true →
      initialBlackjackCheck game =
        ({ game with GameState := GameOver }, [DealerBlackjack], true) ∧
      (roundAfterDeal game actions).emitted = [DealerBlackjack] ∧
      (roundAfterDeal game actions).game.GameState = GameOver ∧
      (roundAfterDeal game actions).calls = []) ∧
    (Hand.IsBlackjack game.PlayerHand = false → Hand.IsBlackjack game.DealerHand = false →
      initialBlackjackCheck game = (game, [], false) ∧
      (game.GameState = PlayerTurn → (initialBlackjackCheck game).1.GameState = PlayerTurn)) := by
  refine ⟨?_, ?_, ?_, ?_⟩
  · intro hp hd
    have hc : initialBlackjackCheck game =
        ({ game with GameState := GameOver }, [PushBlackjack], true) := by
      simp [initialBlackjackCheck, hp, hd]
    rw [roundAfterDeal_decided game actions _ hc]
    exact ⟨hc, rfl, rfl, rfl⟩
  · intro hp hd
    have hc : initialBlackjackCheck game =
        ({ game with GameState := GameOver }, [PlayerBlackjack], true) := by
      simp [initialBlackjackCheck, hp, hd]
    rw [roundAfterDeal_decided game actions _ hc]
    exact ⟨hc, rfl, rfl, rfl⟩
  · intro hp hd
    have hc : initialBlackjackCheck game =
        ({ game with GameState := GameOver }, [DealerBlackjack], true) := by
      simp [initialBlackjackCheck, hp, hd]
    rw [roundAfterDeal_decided game actions _ hc]
    exact ⟨hc, rfl, rfl, rfl⟩
  · intro hp hd
    have hc : initialBlackjackCheck game = (game, [], false) := by
      simp [initialBlackjackCheck, hp, hd]
    rw [hc]
    exact ⟨rfl, fun h => h⟩

/-! ## Which hands are blackjacks -/

/-- C20: on ranks Ace..King, IsBlackjack holds exactly for the two-card hands
made of an Ace and a Ten, Jack, Queen or King, in either order and of any
suits. -/
theorem IsBlackjack_cards (h : Hand) (hv : Hand.ValidRanks h) :
    (Hand.IsBlackjack h = true ↔
      ∃ a b : Card, h = [a, b] ∧
        ((a.Rank = Ace ∧ (b.Rank = Ten ∨ b.Rank = Jack ∨ b.Rank = Queen ∨ b.Rank = King)) ∨
          (b.Rank = Ace ∧
            (a.Rank = Ten ∨ a.Rank = Jack ∨ a.Rank = Queen ∨ a.Rank = King)))) ∧
    (∀ a b : Card, h = [a, b] →
      (Hand.Score h = 21 ↔
        ((a.Rank = Ace ∧ (b.Rank = Ten ∨ b.Rank = Jack ∨ b.Rank = Queen ∨ b.Rank = King)) ∨
          (b.Rank = Ace ∧
            (a.Rank = Ten ∨ a.Rank = Jack ∨ a.Rank = Queen ∨ a.Rank = King))))) := by
  have key : ∀ a b : Card, Hand.ValidRanks [a, b] →
      (Hand.Score [a, b] = 21 ↔
        ((a.Rank = Ace ∧ (b.Rank = Ten ∨ b.Rank = Jack ∨ b.Rank = Queen ∨ b.Rank = King)) ∨
          (b.Rank = Ace ∧
            (a.Rank = Ten ∨ a.Rank = Jack ∨ a.Rank = Queen ∨ a.Rank = King)))) := by
    intro a b hab
    have hl : [a, b].length < maxHandLen := by
      simp [maxHandLen]
    rw [Score_closed [a, b] hab hl]
    have ha := hab a (by simp)
    have hb := hab b (by simp)
    obtain ⟨sa, ra⟩ := a
    obtain ⟨sb, rb⟩ := b
    simp only [Hand.aces, Hand.lowTotal, List.countP_cons, List.countP_nil, List.map_cons,
      List.map_nil, List.sum_cons, List.sum_nil, Rank.Value, Ace, Ten, Jack, Queen, King,
      decide_eq_true_eq] at ha hb ⊢
    unfold Rank at *
    split_ifs <;> omega
  refine ⟨⟨?_, ?_⟩, ?_⟩
  · intro hbj
    simp only [Hand.IsBlackjack, Bool.and_eq_true, decide_eq_true_eq] at hbj
    obtain ⟨hlen, hsc⟩ := hbj
    match h, hlen with
    | [a, b], _ => exact ⟨a, b, rfl, (key a b hv).1 hsc⟩
  · rintro ⟨a, b, rfl, hab⟩
    simp only [Hand.IsBlackjack, Bool.and_eq_true, decide_eq_true_eq]
    exact ⟨rfl, (key a b hv).2 hab⟩
  · rintro a b rfl
    exact key a b hv

/-- Witness for C20: K♥ A♠ is a blackjack. -/
theorem IsBlackjack_cards_witness :
    Hand.ValidRanks [⟨Heart, King⟩, ⟨Spade, Ace⟩] ∧
    (Hand.IsBlackjack [⟨Heart, King⟩, ⟨Spade, Ace⟩] = true ↔
      ∃ a b : Card, [(⟨Heart, King⟩ : Card), ⟨Spade, Ace⟩] = [a, b] ∧
        ((a.Rank = Ace ∧ (b.Rank = Ten ∨ b.Rank = Jack ∨ b.Rank = Queen ∨ b.Rank = King)) ∨
          (b.Rank = Ace ∧
            (a.Rank = Ten ∨ a.Rank = Jack ∨ a.Rank = Queen ∨ a.Rank = King)))) :=
  ⟨by decide, (IsBlackjack_cards [⟨Heart, King⟩, ⟨Spade, Ace⟩] (by decide)).1⟩

/-! ## Conservation of the cards -/

theorem CardsMoved.refl (g : Game) : CardsMoved g g :=
  ⟨[], [], [], by simp, by simp, by simp, List.Perm.refl _⟩

theorem CardsMoved.trans {g1 g2 g3 : Game} (h12 : CardsMoved g1 g2) (h23 : CardsMoved g2 g3) :
    CardsMoved g1 g3 := by
  obtain ⟨p1, d1, r1, hp1, hd1, hr1, hperm1⟩ := h12
  obtain ⟨p2, d2, r2, hp2, hd2, hr2, hperm2⟩ := h23
  refine ⟨p1 ++ p2, d1 ++ d2, r1 ++ r2, ?_, ?_, ?_, ?_⟩
  · rw [hp2, hp1, List.append_assoc]
  · rw [hd2, hd1, List.append_assoc]
  · rw [hr1, hr2, List.append_assoc]
  · rw [List.perm_iff_count] at hperm1 hperm2 ⊢
    intro a
    have h1 := hperm1 a
    have h2 := hperm2 a
    simp only [List.count_append] at h1 h2 ⊢
    omega

theorem CardsMoved.setState {g g' : Game} (h : CardsMoved g g') (st : GameState) :
    CardsMoved g { g' with GameState := st } := h

theorem CardsMoved.toPlayer (g : Game) (c : Card) (rest : Deck) (hd : g.Deck = c :: rest) :
    CardsMoved g { g with Deck := rest, PlayerHand := g.PlayerHand ++ [c] } :=
  ⟨[c], [], [c], rfl, by simp, by simp [hd], by simp⟩

theorem CardsMoved.toDealer (g : Game) (c : Card) (rest : Deck) (hd : g.Deck = c :: rest) :
    CardsMoved g { g with Deck := rest, DealerHand := g.DealerHand ++ [c] } :=
  ⟨[], [c], [c], by simp, rfl, by simp [hd], by simp⟩

theorem CardsMoved.fullDeck {g g' : Game} (h : CardsMoved g g') (hf : FullDeck g) :
    FullDeck g' := by
  obtain ⟨p, d, r, hp, hd, hr, hperm⟩ := h
  unfold FullDeck at hf ⊢
  refine List.Perm.trans ?_ hf
  rw [hp, hd, hr]
  rw [List.perm_iff_count] at hperm ⊢
  intro a
  have h1 := hperm a
  simp only [List.count_append] at h1 ⊢
  omega

theorem dealBody_moved (g : Game) : CardsMoved g (Game.dealBody g).2 := by
  obtain ⟨deck, ph, dh, st, ai⟩ := g
  match deck with
  | [] =>
    simp only [Game.dealBody, Draw_nil]
    exact CardsMoved.refl _
  | [a] =>
    simp only [Game.dealBody, Draw_cons, Draw_nil, Hand.AddCard]
    exact CardsMoved.toPlayer ⟨[a], ph, dh, st, ai⟩ a [] rfl
  | a :: b :: rest =>
    simp only [Game.dealBody, Draw_cons, Hand.AddCard]
    exact (CardsMoved.toPlayer ⟨a :: b :: rest, ph, dh, st, ai⟩ a (b :: rest) rfl).trans
      (CardsMoved.toDealer ⟨b :: rest, ph ++ [a], dh, st, ai⟩ b rest rfl)

theorem dealLoop_moved (n : Nat) : ∀ g : Game, CardsMoved g (Game.dealLoop n g).2 := by
  induction n with
  | zero => intro g; exact CardsMoved.refl g
  | succ n ih =>
    intro g
    have hb := dealBody_moved g
    simp only [Game.dealLoop]
    split
    · next err g' he => rw [he] at hb; exact hb
    · next g' he =>
      rw [he] at hb
      exact hb.trans (ih g')

theorem PlayerAction_moved (g : Game) (action : String) :
    CardsMoved g (Game.PlayerAction g action).game := by
  by_cases ha : action = "h" ∨ action = "hit"
  · cases hd : g.Deck with
    | nil =>
      rw [PlayerAction_hit_nil g action ha hd]
      exact CardsMoved.refl g
    | cons c rest =>
      rw [PlayerAction_hit_cons g action ha c rest hd]
      split
      · exact (CardsMoved.toPlayer g c rest hd).setState GameOver
      · exact CardsMoved.toPlayer g c rest hd
  · by_cases hs : action = "s" ∨ action = "stand"
    · rw [PlayerAction_stand g action hs]
      exact (CardsMoved.refl g).setState DealerTurn
    · rw [PlayerAction_other g action ha hs]
      exact CardsMoved.refl g

theorem DealerAction_moved (g : Game) (o : Outcome) (ho : Game.DealerAction g = some o) :
    CardsMoved g o.game := by
  rcases DealerAction_cases g with ⟨k, _, _, _, h⟩ | ⟨_, h⟩
  · rw [h] at ho
    cases ho
    exact ⟨[], g.Deck.take k, g.Deck.take k, by simp, rfl, by simp, by simp⟩
  · rw [h] at ho
    cases ho
    exact ⟨[], g.Deck, g.Deck, by simp, rfl, by simp, by simp⟩

theorem NewGame_fullDeck {ai : Bool} {swaps : List (Int × Int)} {g : Game}
    (h : NewGame ai swaps = some g) : FullDeck g := by
  obtain ⟨hp, hph, hdh, _, _⟩ := NewGame_deck_perm h
  unfold FullDeck
  rw [hph, hdh]
  simpa using hp

theorem Reachable.deck_full {g : Game} (h : Reachable g) : FullDeck g := by
  induction h with
  | newGame ai swaps g hg => exact NewGame_fullDeck hg
  | deal g _ ih => exact (dealLoop_moved 2 g).fullDeck ih
  | player g action _ ih => exact (PlayerAction_moved g action).fullDeck ih
  | dealer g o _ ho ih => exact (DealerAction_moved g o ho).fullDeck ih
  | winner g _ ih => exact ih
  | setState g st _ ih => exact ih

theorem zero_not_mem_NewDeck : Card.zero ∉ NewDeck := by decide

theorem NewDeck_nodup : NewDeck.Nodup := by decide

/-- C18: each operation, failed or not, only moves cards from the front of the
deck to the ends of the hands; hence in every game reachable from NewGame the
deck and the hands together are a permutation of NewDeck, without duplicate,
and the placeholder card is in no hand. -/
theorem cards_conserved :
    (∀ g : Game, CardsMoved g (Game.DealInitialHands g).2) ∧
    (∀ (g : Game) (action : String), CardsMoved g (Game.PlayerAction g action).game) ∧
    (∀ (g : Game) (o : Outcome), Game.DealerAction g = some o → CardsMoved g o.game) ∧
    (∀ g : Game, CardsMoved g (Game.DetermineWinner g).1) ∧
    (∀ g : Game, Reachable g →
      List.Perm (g.Deck ++ g.PlayerHand ++ g.DealerHand) NewDeck ∧
      (g.Deck ++ g.PlayerHand ++ g.DealerHand).Nodup ∧
      g.Deck.length + g.PlayerHand.length + g.DealerHand.length = 52 ∧
      Card.zero ∉ g.PlayerHand ∧ Card.zero ∉ g.DealerHand) := by
  refine ⟨fun g => dealLoop_moved 2 g, PlayerAction_moved, DealerAction_moved,
    fun g => CardsMoved.refl g, ?_⟩
  intro g hg
  have hf : List.Perm (g.Deck ++ g.PlayerHand ++ g.DealerHand) NewDeck := hg.deck_full
  have hz : Card.zero ∉ g.Deck ++ g.PlayerHand ++ g.DealerHand :=
    fun hm => zero_not_mem_NewDeck (hf.mem_iff.1 hm)
  refine ⟨hf, hf.nodup_iff.2 NewDeck_nodup, ?_, ?_, ?_⟩
  · have hl := hf.length_eq
    have h52 : NewDeck.length = 52 := by decide
    simp only [List.length_append] at hl
    omega
  · intro hm
    exact hz (by simp [hm])
  · intro hm
    exact hz (by simp [hm])

/-! ## Hands of distinct standard cards -/

theorem NewDeck_card : ∀ c ∈ NewDeck,
    (c.Suit = 0 ∨ c.Suit = 1 ∨ c.Suit = 2 ∨ c.Suit = 3) ∧ Ace ≤ c.Rank ∧ c.Rank ≤ King := by
  decide

/-- A hand of distinct cards of the standard deck holds at most four cards of
each rank. -/
theorem rank_count_le_four (h : Hand) (hn : h.Nodup) (hs : ∀ c ∈ h, c ∈ NewDeck) (r : Rank) :
    h.countP (fun c => decide (c.Rank = r)) ≤ 4 := by
  rw [List.countP_eq_length_filter]
  have hsub : h.filter (fun c => decide (c.Rank = r)) ⊆
      [(⟨0, r⟩ : Card), ⟨1, r⟩, ⟨2, r⟩, ⟨3, r⟩] := by
    intro c hc
    rw [List.mem_filter] at hc
    obtain ⟨hm, hr⟩ := hc
    have hr' : c.Rank = r := by simpa using hr
    have hsuit := (NewDeck_card c (hs c hm)).1
    obtain ⟨s, rk⟩ := c
    simp only at hr' hsuit
    subst hr'
    rcases hsuit with rfl | rfl | rfl | rfl <;> simp
  have hnd : (h.filter (fun c => decide (c.Rank = r))).Nodup := hn.filter _
  exact (List.subperm_of_subset hnd hsub).length_le

theorem four_length_le (h : Hand) (hv : Hand.ValidRanks h) :
    4 * (h.length : Int) ≤
      Hand.lowTotal h + 3 * (h.countP (fun c => decide (c.Rank = 1)) : Int) +
        2 * (h.countP (fun c => decide (c.Rank = 2)) : Int) +
        (h.countP (fun c => decide (c.Rank = 3)) : Int) := by
  induction h with
  | nil => simp [Hand.lowTotal]
  | cons c h ih =>
    rw [validRanks_cons] at hv
    have hi := ih hv.2
    have hc := hv.1
    rw [lowTotal_cons]
    simp only [List.length_cons, List.countP_cons, Rank.Value, Ace, Jack, Queen, King,
      decide_eq_true_eq] at hc ⊢
    push_cast
    unfold Rank at *
    split_ifs <;> omega

/-- A hand of distinct standard cards whose low total is at most 21 holds at
most 11 cards. -/
theorem standard_hand_le_eleven (h : Hand) (hn : h.Nodup) (hs : ∀ c ∈ h, c ∈ NewDeck)
    (h21 : Hand.lowTotal h ≤ 21) : h.length ≤ 11 := by
  have hv : Hand.ValidRanks h := fun c hc => (NewDeck_card c (hs c hc)).2
  have h4 := four_length_le h hv
  have c1 := rank_count_le_four h hn hs 1
  have c2 := rank_count_le_four h hn hs 2
  have c3 := rank_count_le_four h hn hs 3
  omega

theorem lowTotal_le_Score (h : Hand) (hv : Hand.ValidRanks h) (hl : h.length < maxHandLen) :
    Hand.lowTotal h ≤ Hand.Score h := by
  rw [Score_closed h hv hl]
  split <;> omega

theorem two_cards_not_bust (h : Hand) (hv : Hand.ValidRanks h) (h2 : h.length = 2) :
    Hand.IsBust h = false := by
  have hl : h.length < maxHandLen := by rw [h2]; decide
  have hb := lowTotal_bounds h hv
  rw [h2] at hb
  have hc := Score_closed h hv hl
  simp only [Hand.IsBust, decide_eq_false_iff_not, not_lt]
  rw [hc]
  split
  · next hcond => omega
  · omega

/-! ## Soundness of a round on the standard deck -/

theorem FullDeck.length_eq {g : Game} (hf : FullDeck g) :
    g.Deck.length + g.PlayerHand.length + g.DealerHand.length = 52 := by
  have hl := List.Perm.length_eq hf
  have h52 : NewDeck.length = 52 := by decide
  simp only [List.length_append] at hl
  omega

theorem FullDeck.sublist_facts {g : Game} (hf : FullDeck g) (h : Hand)
    (hs : ∀ c ∈ h, c ∈ g.Deck ++ g.PlayerHand ++ g.DealerHand)
    (hn : h.Nodup) :
    h.Nodup ∧ (∀ c ∈ h, c ∈ NewDeck) ∧ Hand.ValidRanks h ∧ h.length < maxHandLen := by
  have hmem : ∀ c ∈ h, c ∈ NewDeck := fun c hc => (List.Perm.mem_iff hf).1 (hs c hc)
  refine ⟨hn, hmem, fun c hc => (NewDeck_card c (hmem c hc)).2, ?_⟩
  have hle : h.length ≤ NewDeck.length := (List.subperm_of_subset hn hmem).length_le
  have h52 : NewDeck.length = 52 := by decide
  have : (52 : Nat) < maxHandLen := by decide
  omega

theorem FullDeck.nodup {g : Game} (hf : FullDeck g) :
    (g.Deck ++ g.PlayerHand ++ g.DealerHand).Nodup :=
  (List.Perm.nodup_iff hf).2 NewDeck_nodup

theorem FullDeck.player {g : Game} (hf : FullDeck g) :
    g.PlayerHand.Nodup ∧ (∀ c ∈ g.PlayerHand, c ∈ NewDeck) ∧ Hand.ValidRanks g.PlayerHand ∧
      g.PlayerHand.length < maxHandLen := by
  have hn := hf.nodup
  rw [List.nodup_append, List.nodup_append] at hn
  exact hf.sublist_facts g.PlayerHand (fun c hc => by simp [hc]) hn.1.2.1

theorem FullDeck.dealer {g : Game} (hf : FullDeck g) :
    g.DealerHand.Nodup ∧ (∀ c ∈ g.DealerHand, c ∈ NewDeck) ∧ Hand.ValidRanks g.DealerHand ∧
      g.DealerHand.length < maxHandLen := by
  have hn := hf.nodup
  rw [List.nodup_append] at hn
  exact hf.sublist_facts g.DealerHand (fun c hc => by simp [hc]) hn.2.1

theorem FullDeck.dealer_deck {g : Game} (hf : FullDeck g) :
    (g.DealerHand ++ g.Deck).Nodup ∧ (∀ c ∈ g.DealerHand ++ g.Deck, c ∈ NewDeck) ∧
      Hand.ValidRanks (g.DealerHand ++ g.Deck) ∧ (g.DealerHand ++ g.Deck).length < maxHandLen := by
  have hn := hf.nodup
  have hperm : List.Perm (g.DealerHand ++ g.Deck ++ g.PlayerHand)
      (g.Deck ++ g.PlayerHand ++ g.DealerHand) := by
    rw [List.perm_iff_count]
    intro a
    simp only [List.count_append]
    omega
  have hn2 : (g.DealerHand ++ g.Deck ++ g.PlayerHand).Nodup := (List.Perm.nodup_iff hperm).2 hn
  rw [List.nodup_append] at hn2
  refine hf.sublist_facts (g.DealerHand ++ g.Deck) (fun c hc => ?_) hn2.1
  simp only [List.mem_append] at hc ⊢
  tauto

/-- A hand of distinct standard cards that is not bust holds at most 11 cards. -/
theorem not_bust_le_eleven (h : Hand) (hn : h.Nodup) (hs : ∀ c ∈ h, c ∈ NewDeck)
    (hb : Hand.IsBust h = false) : h.length ≤ 11 := by
  have hv : Hand.ValidRanks h := fun c hc => (NewDeck_card c (hs c hc)).2
  have hle : h.length ≤ NewDeck.length := (List.subperm_of_subset hn hs).length_le
  have h52 : NewDeck.length = 52 := by decide
  have hmax : (52 : Nat) < maxHandLen := by decide
  have hlow := lowTotal_le_Score h hv (by omega)
  have hsc : Hand.Score h ≤ 21 := by
    simpa [Hand.IsBust] using hb
  exact standard_hand_le_eleven h hn hs (by omega)

/-- One call of PlayerAction in a round on the standard deck: no draw fails,
and the outcome tells a bust from a hand still in play. -/
theorem PlayerAction_sound (g : Game) (action : String) (hf : FullDeck g)
    (hd2 : g.DealerHand.length = 2) (hs : g.GameState = PlayerTurn)
    (hb : Hand.IsBust g.PlayerHand = false) :
    (Game.PlayerAction g action).err = none ∧
    FullDeck (Game.PlayerAction g action).game ∧
    (Game.PlayerAction g action).game.DealerHand.length = 2 ∧
    ((((Game.PlayerAction g action).game.GameState = PlayerTurn ∨
          (Game.PlayerAction g action).game.GameState = DealerTurn) ∧
        (Game.PlayerAction g action).emitted = [] ∧
        Hand.IsBust (Game.PlayerAction g action).game.PlayerHand = false) ∨
      ((Game.PlayerAction g action).game.GameState = GameOver ∧
        (Game.PlayerAction g action).emitted = [PlayerBust] ∧
        Hand.IsBust (Game.PlayerAction g action).game.PlayerHand = true)) := by
  have hfull := (PlayerAction_moved g action).fullDeck hf
  refine ⟨?_, hfull, ?_, ?_⟩
  · by_cases ha : action = "h" ∨ action = "hit"
    · cases hd : g.Deck with
      | nil =>
        have hlen := hf.length_eq
        have hp := hf.player
        have := not_bust_le_eleven g.PlayerHand hp.1 hp.2.1 hb
        rw [hd] at hlen
        simp only [List.length_nil] at hlen
        omega
      | cons c rest =>
        rw [PlayerAction_hit_cons g action ha c rest hd]
        split <;> rfl
    · by_cases hst : action = "s" ∨ action = "stand"
      · rw [PlayerAction_stand g action hst]
      · rw [PlayerAction_other g action ha hst]
  · by_cases ha : action = "h" ∨ action = "hit"
    · cases hd : g.Deck with
      | nil => rw [PlayerAction_hit_nil g action ha hd]; exact hd2
      | cons c rest =>
        rw [PlayerAction_hit_cons g action ha c rest hd]
        split <;> exact hd2
    · by_cases hst : action = "s" ∨ action = "stand"
      · rw [PlayerAction_stand g action hst]; exact hd2
      · rw [PlayerAction_other g action ha hst]; exact hd2
  · by_cases ha : action = "h" ∨ action = "hit"
    · cases hd : g.Deck with
      | nil =>
        rw [PlayerAction_hit_nil g action ha hd]
        exact Or.inl ⟨Or.inl hs, rfl, hb⟩
      | cons c rest =>
        rw [PlayerAction_hit_cons g action ha c rest hd]
        by_cases hbust : Hand.IsBust (g.PlayerHand ++ [c]) = true
        · rw [if_pos hbust]
          exact Or.inr ⟨rfl, rfl, hbust⟩
        · rw [if_neg hbust]
          exact Or.inl ⟨Or.inl hs, rfl, by simpa using hbust⟩
    · by_cases hst : action = "s" ∨ action = "stand"
      · rw [PlayerAction_stand g action hst]
        exact Or.inl ⟨Or.inr rfl, rfl, hb⟩
      · rw [PlayerAction_other g action ha hst]
        exact Or.inl ⟨Or.inl hs, rfl, hb⟩

/-- The dealer turn of a round on the standard deck: DealerAction returns with
no error, ends the game and emits DealerBust exactly when the dealer is bust. -/
theorem DealerAction_sound (g : Game) (hf : FullDeck g) (hd2 : g.DealerHand.length = 2)
    (hb : Hand.IsBust g.PlayerHand = false) :
    ∃ o, Game.DealerAction g = some o ∧ o.err = none ∧ FullDeck o.game ∧
      o.game.PlayerHand = g.PlayerHand ∧ o.game.GameState = GameOver ∧
      ((o.emitted = [DealerBust] ∧ Hand.IsBust o.game.DealerHand = true) ∨
        (o.emitted = [] ∧ Hand.IsBust o.game.DealerHand = false)) := by
  rcases DealerAction_cases g with ⟨k, hk, hlt, h17, h⟩ | ⟨hall, h⟩
  · refine ⟨_, h, rfl, (DealerAction_moved g _ h).fullDeck hf, rfl, rfl, ?_⟩
    by_cases hbust : Hand.IsBust (g.DealerHand ++ g.Deck.take k) = true
    · have hk1 : 1 ≤ k := by
        by_contra hcon
        have hk0 : k = 0 := by omega
        subst hk0
        simp only [List.take_zero, List.append_nil] at hbust
        have := two_cards_not_bust g.DealerHand hf.dealer.2.2.1 hd2
        rw [this] at hbust
        exact Bool.false_ne_true hbust
      left
      exact ⟨by simp [hk1, hbust], hbust⟩
    · right
      exact ⟨by simp [hbust], by simpa using hbust⟩
  · exfalso
    have hlast := hall g.Deck.length (Nat.le_refl _)
    rw [List.take_length] at hlast
    have hdd := hf.dealer_deck
    have hnb : Hand.IsBust (g.DealerHand ++ g.Deck) = false := by
      simp only [Hand.IsBust, decide_eq_false_iff_not, not_lt]
      omega
    have h11 := not_bust_le_eleven _ hdd.1 hdd.2.1 hnb
    have hp := hf.player
    have hp11 := not_bust_le_eleven g.PlayerHand hp.1 hp.2.1 hb
    have hlen := hf.length_eq
    simp only [List.length_append] at h11
    omega

/-- The player loop of a round on the standard deck: no draw fails; when the
loop ends the player stands without bust and nothing emitted, or is bust with
PlayerBust emitted; when the actions run out nothing has been emitted. -/
theorem playerLoop_sound (actions : List String) : ∀ r : Round,
    FullDeck r.game → r.game.DealerHand.length = 2 → r.errors = [] → r.completed = true →
    ((((r.game.GameState = PlayerTurn ∨ r.game.GameState = DealerTurn) ∧ r.emitted = [] ∧
          Hand.IsBust r.game.PlayerHand = false) ∨
        (r.game.GameState = GameOver ∧ r.emitted = [PlayerBust] ∧
          Hand.IsBust r.game.PlayerHand = true))) →
    FullDeck (playerLoop actions r).game ∧
    (playerLoop actions r).game.DealerHand.length = 2 ∧
    (playerLoop actions r).errors = [] ∧
    (playerLoop actions r).initialResultDetermined = r.initialResultDetermined ∧
    (((playerLoop actions r).completed = false ∧ (playerLoop actions r).emitted = []) ∨
      ((playerLoop actions r).completed = true ∧
        (playerLoop actions r).game.GameState = DealerTurn ∧
        (playerLoop actions r).emitted = [] ∧
        Hand.IsBust (playerLoop actions r).game.PlayerHand = false) ∨
      ((playerLoop actions r).completed = true ∧
        (playerLoop actions r).game.GameState = GameOver ∧
        (playerLoop actions r).emitted = [PlayerBust] ∧
        Hand.IsBust (playerLoop actions r).game.PlayerHand = true)) := by
  have hstop : ∀ r : Round, FullDeck r.game → r.game.DealerHand.length = 2 → r.errors = [] →
      r.completed = true → r.game.GameState ≠ PlayerTurn →
      ((((r.game.GameState = PlayerTurn ∨ r.game.GameState = DealerTurn) ∧ r.emitted = [] ∧
            Hand.IsBust r.game.PlayerHand = false) ∨
          (r.game.GameState = GameOver ∧ r.emitted = [PlayerBust] ∧
            Hand.IsBust r.game.PlayerHand = true))) →
      FullDeck r.game ∧ r.game.DealerHand.length = 2 ∧ r.errors = [] ∧
      r.initialResultDetermined = r.initialResultDetermined ∧
      ((r.completed = false ∧ r.emitted = []) ∨
        (r.completed = true ∧ r.game.GameState = DealerTurn ∧ r.emitted = [] ∧
          Hand.IsBust r.game.PlayerHand = false) ∨
        (r.completed = true ∧ r.game.GameState = GameOver ∧ r.emitted = [PlayerBust] ∧
          Hand.IsBust r.game.PlayerHand = true)) := by
    intro r hf hd2 he hc hs hcase
    refine ⟨hf, hd2, he, rfl, ?_⟩
    rcases hcase with ⟨hst | hst, hem, hb⟩ | ⟨hst, hem, hb⟩
    · exact absurd hst hs
    · exact Or.inr (Or.inl ⟨hc, hst, hem, hb⟩)
    · exact Or.inr (Or.inr ⟨hc, hst, hem, hb⟩)
  induction actions with
  | nil =>
    intro r hf hd2 he hc hcase
    by_cases hs : r.game.GameState = PlayerTurn
    · have hnil : playerLoop [] r = { r with completed := false } := by
        simp only [playerLoop, if_pos hs]
      rw [hnil]
      refine ⟨hf, hd2, he, rfl, Or.inl ⟨rfl, ?_⟩⟩
      rcases hcase with ⟨_, hem, _⟩ | ⟨hst, _, _⟩
      · exact hem
      · rw [hs] at hst
        exact absurd hst PlayerTurn_ne_GameOver
    · rw [playerLoop_skip [] r hs]
      exact hstop r hf hd2 he hc hs hcase
  | cons a rest ih =>
    intro r hf hd2 he hc hcase
    by_cases hs : r.game.GameState = PlayerTurn
    · have hem : r.emitted = [] ∧ Hand.IsBust r.game.PlayerHand = false := by
        rcases hcase with ⟨_, hem, hb⟩ | ⟨hst, _, _⟩
        · exact ⟨hem, hb⟩
        · rw [hs] at hst
          exact absurd hst PlayerTurn_ne_GameOver
      obtain ⟨herr, hfull, hdl, hout⟩ := PlayerAction_sound r.game a hf hd2 hs hem.2
      have hcons : playerLoop (a :: rest) r =
          playerLoop rest
            { r with game := (Game.PlayerAction r.game a).game,
                     emitted := (Game.PlayerAction r.game a).emitted,
                     calls := r.calls ++ [Call.PlayerAction a],
                     errors := r.errors } := by
        simp only [playerLoop, if_pos hs, herr, Option.toList, List.append_nil, hem.1,
          List.nil_append]
      rw [hcons]
      exact ih
        { r with game := (Game.PlayerAction r.game a).game,
                 emitted := (Game.PlayerAction r.game a).emitted,
                 calls := r.calls ++ [Call.PlayerAction a],
                 errors := r.errors }
        hfull hdl he hc hout
    · rw [playerLoop_skip (a :: rest) r hs]
      exact hstop r hf hd2 he hc hs hcase

theorem winnerStep_game (r : Round) : (winnerStep r).game = r.game := by
  unfold winnerStep
  split
  · split
    · rfl
    · rfl
  · rfl

theorem winnerStep_errors (r : Round) : (winnerStep r).errors = r.errors := by
  unfold winnerStep
  split
  · split
    · rfl
    · rfl
  · rfl

theorem winnerStep_completed (r : Round) : (winnerStep r).completed = r.completed := by
  unfold winnerStep
  split
  · split
    · rfl
    · rfl
  · rfl

theorem winnerStep_call (r : Round) (hs : r.game.GameState = GameOver)
    (hi : r.initialResultDetermined = false) (hp : Hand.IsBust r.game.PlayerHand = false)
    (hd : Hand.IsBust r.game.DealerHand = false) :
    (winnerStep r).emitted =
      r.emitted ++ [classify (Hand.Score r.game.PlayerHand) (Hand.Score r.game.DealerHand)] := by
  simp only [winnerStep, if_pos (And.intro hs hi), if_pos (And.intro hp hd),
    Game.DetermineWinner]

theorem winnerStep_bust (r : Round)
    (hb : Hand.IsBust r.game.PlayerHand = true ∨ Hand.IsBust r.game.DealerHand = true) :
    (winnerStep r).emitted = r.emitted := by
  have hn : ¬ (Hand.IsBust r.game.PlayerHand = false ∧ Hand.IsBust r.game.DealerHand = false) := by
    rintro ⟨h1, h2⟩
    rcases hb with h | h
    · rw [h1] at h; exact Bool.false_ne_true h
    · rw [h2] at h; exact Bool.false_ne_true h
  simp only [winnerStep, if_neg hn]
  split <;> rfl

/-- The dealer step of a round on the standard deck. -/
theorem dealerStep_sound (r : Round) (hf : FullDeck r.game)
    (hd2 : r.game.DealerHand.length = 2) (hs : r.game.GameState = DealerTurn)
    (hb : Hand.IsBust r.game.PlayerHand = false) (he : r.errors = []) (hem : r.emitted = []) :
    (dealerStep r).errors = [] ∧ FullDeck (dealerStep r).game ∧
    (dealerStep r).game.GameState = GameOver ∧
    (dealerStep r).initialResultDetermined = r.initialResultDetermined ∧
    (dealerStep r).completed = r.completed ∧
    Hand.IsBust (dealerStep r).game.PlayerHand = false ∧
    (((dealerStep r).emitted = [DealerBust] ∧
        Hand.IsBust (dealerStep r).game.DealerHand = true) ∨
      ((dealerStep r).emitted = [] ∧ Hand.IsBust (dealerStep r).game.DealerHand = false)) := by
  obtain ⟨o, ho, herr, hfull, hph, hst, hcase⟩ := DealerAction_sound r.game hf hd2 hb
  have hstep : dealerStep r =
      { r with game := o.game, emitted := o.emitted, calls := r.calls ++ [Call.DealerAction],
               errors := [] } := by
    simp only [dealerStep, if_pos hs, ho, herr, Option.toList, he, hem, List.append_nil,
      List.nil_append]
  rw [hstep]
  exact ⟨rfl, hfull, hst, rfl, rfl, by rw [hph]; exact hb, hcase⟩

/-- A round on the standard deck, from the blackjack check on: no operation
returns an error, the cards are conserved, and a round that reaches its end has
emitted exactly one classification while a round still waiting for the player
has emitted none. -/
theorem roundAfterDeal_sound (g : Game) (actions : List String) (hf : FullDeck g)
    (hp2 : g.PlayerHand.length = 2) (hd2 : g.DealerHand.length = 2)
    (hs : g.GameState = PlayerTurn) :
    (roundAfterDeal g actions).errors = [] ∧ FullDeck (roundAfterDeal g actions).game ∧
    ((roundAfterDeal g actions).completed = true →
      (roundAfterDeal g actions).emitted.length = 1) ∧
    ((roundAfterDeal g actions).completed = false → (roundAfterDeal g actions).emitted = []) := by
  have hdecided : ∀ t : ResultType,
      initialBlackjackCheck g = ({ g with GameState := GameOver }, [t], true) →
      (roundAfterDeal g actions).errors = [] ∧ FullDeck (roundAfterDeal g actions).game ∧
      ((roundAfterDeal g actions).completed = true →
        (roundAfterDeal g actions).emitted.length = 1) ∧
      ((roundAfterDeal g actions).completed = false →
        (roundAfterDeal g actions).emitted = []) := by
    intro t hc
    rw [roundAfterDeal_decided g actions t hc]
    refine ⟨rfl, hf, fun _ => rfl, fun h => ?_⟩
    exact absurd h (by simp)
  cases hpb : Hand.IsBlackjack g.PlayerHand <;> cases hdb : Hand.IsBlackjack g.DealerHand
  · have hc : initialBlackjackCheck g = (g, [], false) := by
      simp [initialBlackjackCheck, hpb, hdb]
    have hnb := two_cards_not_bust g.PlayerHand hf.player.2.2.1 hp2
    have hpl := playerLoop_sound actions
      { game := g, emitted := [], calls := [], errors := [], initialResultDetermined := false,
        completed := true }
      hf hd2 rfl rfl (Or.inl ⟨Or.inl hs, rfl, hnb⟩)
    have hround : roundAfterDeal g actions =
        if (playerLoop actions
            { game := g, emitted := [], calls := [], errors := [],
              initialResultDetermined := false, completed := true }).completed = true then
          winnerStep (dealerStep (playerLoop actions
            { game := g, emitted := [], calls := [], errors := [],
              initialResultDetermined := false, completed := true }))
        else
          playerLoop actions
            { game := g, emitted := [], calls := [], errors := [],
              initialResultDetermined := false, completed := true } := by
      simp only [roundAfterDeal, hc]
    rw [hround]
    generalize playerLoop actions
      { game := g, emitted := [], calls := [], errors := [], initialResultDetermined := false,
        completed := true } = r1 at hpl
    obtain ⟨hf1, hdl1, he1, hi1, hcase⟩ := hpl
    simp only at hi1
    rcases hcase with ⟨hc1, hem1⟩ | ⟨hc1, hst1, hem1, hb1⟩ | ⟨hc1, hst1, hem1, hb1⟩
    · rw [if_neg (by rw [hc1]; simp)]
      exact ⟨he1, hf1, fun h => by rw [hc1] at h; exact absurd h (by simp), fun _ => hem1⟩
    · rw [if_pos hc1]
      obtain ⟨he2, hf2, hst2, hi2, hc2, hpb2, hcase2⟩ :=
        dealerStep_sound r1 hf1 hdl1 hst1 hb1 he1 hem1
      refine ⟨by rw [winnerStep_errors]; exact he2, by rw [winnerStep_game]; exact hf2, ?_, ?_⟩
      · intro _
        rcases hcase2 with ⟨hem2, hdb2⟩ | ⟨hem2, hdb2⟩
        · rw [winnerStep_bust _ (Or.inr hdb2), hem2]
          rfl
        · rw [winnerStep_call _ hst2 (by rw [hi2, hi1]) hpb2 hdb2, hem2]
          rfl
      · intro h
        rw [winnerStep_completed, hc2, hc1] at h
        exact absurd h (by simp)
    · rw [if_pos hc1]
      rw [dealerStep_skip r1 (by rw [hst1]; exact GameOver_ne_DealerTurn)]
      refine ⟨by rw [winnerStep_errors]; exact he1, by rw [winnerStep_game]; exact hf1, ?_, ?_⟩
      · intro _
        rw [winnerStep_bust _ (Or.inl hb1), hem1]
        rfl
      · intro h
        rw [winnerStep_completed, hc1] at h
        exact absurd h (by simp)
  · exact hdecided DealerBlackjack (by simp [initialBlackjackCheck, hpb, hdb])
  · exact hdecided PlayerBlackjack (by simp [initialBlackjackCheck, hpb, hdb])
  · exact hdecided PushBlackjack (by simp [initialBlackjackCheck, hpb, hdb])

/-- Dealing from a shuffled standard deck with empty hands succeeds and leaves
two cards in each hand. -/
theorem deal_standard (g : Game) (hperm : List.Perm g.Deck NewDeck) (hp : g.PlayerHand = [])
    (hd : g.DealerHand = []) (hs : g.GameState = PlayerTurn) :
    ∃ g', Game.DealInitialHands g = (none, g') ∧ FullDeck g' ∧ g'.PlayerHand.length = 2 ∧
      g'.DealerHand.length = 2 ∧ g'.GameState = PlayerTurn := by
  have hlen : g.Deck.length = 52 := by
    rw [hperm.length_eq]; decide
  have hf : FullDeck g := by
    unfold FullDeck
    rw [hp, hd]
    simpa using hperm
  have hmoved := dealLoop_moved 2 g
  obtain ⟨deck, ph, dh, st, ai⟩ := g
  simp only at hp hd hs hlen
  subst hp hd hs
  match deck, hlen with
  | c1 :: c2 :: c3 :: c4 :: rest, _ =>
    have h4 := DealInitialHands_four ⟨c1 :: c2 :: c3 :: c4 :: rest, [], [], PlayerTurn, ai⟩
      c1 c2 c3 c4 rest rfl
    refine ⟨_, h4, ?_, rfl, rfl, rfl⟩
    have := hmoved.fullDeck hf
    rw [← Game.DealInitialHands, h4] at this
    exact this

theorem DealerTurn_ne_PlayerTurn : DealerTurn ≠ PlayerTurn := by decide

theorem dealerStep_completed (r : Round) : (dealerStep r).completed = r.completed := by
  unfold dealerStep
  split
  · rcases DealerAction_cases r.game with ⟨k, _, _, _, h⟩ | ⟨_, h⟩
    · rw [h]
    · rw [h]
  · rfl

/-- The player loop ends when a stand is among the actions. -/
theorem playerLoop_completed (actions : List String) : ∀ r : Round, r.completed = true →
    (∃ a ∈ actions, a = "s" ∨ a = "stand") → (playerLoop actions r).completed = true := by
  induction actions with
  | nil =>
    intro r _ hex
    obtain ⟨a, ha, _⟩ := hex
    simp at ha
  | cons a rest ih =>
    intro r hc hex
    by_cases hs : r.game.GameState = PlayerTurn
    · by_cases hst : a = "s" ∨ a = "stand"
      · have hcons : playerLoop (a :: rest) r =
            playerLoop rest
              { r with game := { r.game with GameState := DealerTurn },
                       emitted := r.emitted ++ [],
                       calls := r.calls ++ [Call.PlayerAction a],
                       errors := r.errors ++ [] } := by
          simp only [playerLoop, if_pos hs, PlayerAction_stand r.game a hst, Option.toList]
        rw [hcons, playerLoop_skip rest _ DealerTurn_ne_PlayerTurn]
        exact hc
      · have hrest : ∃ b ∈ rest, b = "s" ∨ b = "stand" := by
          obtain ⟨b, hb, hbs⟩ := hex
          rcases List.mem_cons.1 hb with rfl | hb'
          · exact absurd hbs hst
          · exact ⟨b, hb', hbs⟩
        simp only [playerLoop, if_pos hs]
        exact ih _ hc hrest
    · rw [playerLoop_skip (a :: rest) r hs]
      exact hc

theorem roundAfterDeal_completed (g : Game) (actions : List String)
    (hex : ∃ a ∈ actions, a = "s" ∨ a = "stand") :
    (roundAfterDeal g actions).completed = true := by
  have hpl := playerLoop_completed actions
    { game := (initialBlackjackCheck g).1, emitted := (initialBlackjackCheck g).2.1, calls := [],
      errors := [], initialResultDetermined := (initialBlackjackCheck g).2.2, completed := true }
    rfl hex
  simp only [roundAfterDeal, hpl, if_true]
  rw [winnerStep_completed, dealerStep_completed]
  exact hpl

/-- C17: a round of main on a shuffled standard deck deals without error, and
when it runs to its end, whatever the player typed, exactly one result
classification has been emitted; while it still waits for the player none has.
A round whose actions contain a stand runs to its end. -/
theorem one_classification_per_round (g : Game) (actions : List String)
    (hperm : List.Perm g.Deck NewDeck) (hp : g.PlayerHand = []) (hd : g.DealerHand = [])
    (hs : g.GameState = PlayerTurn) :
    ∃ r, playRound g actions = Except.ok r ∧
      (r.completed = true → r.emitted.length = 1) ∧
      (r.completed = false → r.emitted = []) ∧
      ((∃ a ∈ actions, a = "s" ∨ a = "stand") → r.completed = true) := by
  obtain ⟨g', hdeal, hf, hp2, hd2, hs'⟩ := deal_standard g hperm hp hd hs
  have hsound := roundAfterDeal_sound g' actions hf hp2 hd2 hs'
  refine ⟨roundAfterDeal g' actions, by simp only [playRound, hdeal], hsound.2.2.1,
    hsound.2.2.2, roundAfterDeal_completed g' actions⟩

/-- Witness for C17: the unshuffled deck, the player hits once and stands. -/
theorem one_classification_per_round_witness :
    ∃ r, playRound ⟨NewDeck, [], [], PlayerTurn, true⟩ ["h", "s"] = Except.ok r ∧
      (r.completed = true → r.emitted.length = 1) ∧
      (r.completed = false → r.emitted = []) ∧
      ((∃ a ∈ ["h", "s"], a = "s" ∨ a = "stand") → r.completed = true) :=
  one_classification_per_round ⟨NewDeck, [], [], PlayerTurn, true⟩ ["h", "s"]
    (List.Perm.refl _) rfl rfl rfl

/-- C19: in a round of main on a shuffled standard deck no draw fails, whatever
the player types: dealing returns no error and neither PlayerAction nor
DealerAction returns one, the cards staying those of the deck; a hand of
distinct standard cards that is not bust holds at most 11 cards. -/
theorem no_draw_fails (g : Game) (actions : List String)
    (hperm : List.Perm g.Deck NewDeck) (hp : g.PlayerHand = []) (hd : g.DealerHand = [])
    (hs : g.GameState = PlayerTurn) :
    (Game.DealInitialHands g).1 = none ∧
    (∃ r, playRound g actions = Except.ok r ∧ r.errors = [] ∧ FullDeck r.game) ∧
    (∀ h : Hand, h.Nodup → (∀ c ∈ h, c ∈ NewDeck) → Hand.IsBust h = false →
      h.length ≤ 11) := by
  obtain ⟨g', hdeal, hf, hp2, hd2, hs'⟩ := deal_standard g hperm hp hd hs
  have hsound := roundAfterDeal_sound g' actions hf hp2 hd2 hs'
  refine ⟨by rw [hdeal], ⟨roundAfterDeal g' actions, by simp only [playRound, hdeal],
    hsound.1, hsound.2.1⟩, not_bust_le_eleven⟩

/-- Witness for C19: the unshuffled deck, the player hits until bust. -/
theorem no_draw_fails_witness :
    (Game.DealInitialHands ⟨NewDeck, [], [], PlayerTurn, true⟩).1 = none ∧
    (∃ r, playRound ⟨NewDeck, [], [], PlayerTurn, true⟩ ["h", "h", "h", "h", "h"] =
        Except.ok r ∧ r.errors = [] ∧ FullDeck r.game) ∧
    (∀ h : Hand, h.Nodup → (∀ c ∈ h, c ∈ NewDeck) → Hand.IsBust h = false →
      h.length ≤ 11) :=
  no_draw_fails ⟨NewDeck, [], [], PlayerTurn, true⟩ ["h", "h", "h", "h", "h"]
    (List.Perm.refl _) rfl rfl rfl

end Commjack
